import Mathlib

/-!
Verification of the schema-drift detection engine of this repository.

The definitions below are shallow embeddings of the Python sources:
  * tools/normalize.py                  (text normalizer, canonicalize)
  * db_schema_yaml_validator/test_schema_yaml.py   (YAML comparator)
  * sql_schema_json_validator/export_schema_json.py (snapshot builder, FK grouping)
  * sql_schema_json_validator1/.../test_schema_json.py (JSON comparator with ignore rules)
  * conftest.py / test_schema_json.py ignore-glob predicate (fnmatch on "schema.table")

Python data is modelled as follows: optional / nullable values are `Option`,
database rows are structures with one field per accessed column attribute,
Python `dict`s are association lists with first-occurrence key order and
last-write value (as in CPython), Python `set`s are lists considered up to
duplication (set operations deduplicate), and Python's stable `sorted` is
insertion sort, which computes the same list as any stable sort for a total
preorder.  Strings compare lexicographically by code point, as in Python.
-/

namespace SchemaDrift

/-! ### Text normalizer (tools/normalize.py `_norm_sql`, test_schema_yaml.py `norm`) -/

/-- Whitespace as recognised by Python `str.split()` (restricted to the ASCII
whitespace characters, which are the only ones appearing in SQL definitions). -/
def isWs (c : Char) : Bool :=
  c = ' ' || c = '\t' || c = '\n' || c = '\r' || c = '\x0b' || c = '\x0c'

/-- Raw run decomposition of a character list: whitespace characters open a new
(possibly empty) run, non-whitespace characters extend the current first run.
`pySplit` below filters out the empty runs, which yields Python `s.split()`. -/
def wordsR : List Char → List (List Char)
  | [] => []
  | c :: cs =>
    if isWs c then [] :: wordsR cs
    else
      match wordsR cs with
      | [] => [[c]]
      | w :: ws => (c :: w) :: ws

/-- Python `s.split()`: the maximal whitespace-free runs of `s`. -/
def pySplit (l : List Char) : List (List Char) :=
  (wordsR l).filter (fun w => w ≠ [])

/-- Python `" ".join(ws)` on character lists. -/
def joinWords : List (List Char) → List Char
  | [] => []
  | [w] => w
  | w :: v :: ws => w ++ ' ' :: joinWords (v :: ws)

/-- Separator-prefixed join: empty for no remaining words, otherwise a single
space followed by the join of the remaining words. -/
def sepJoin (ws : List (List Char)) : List Char :=
  match ws with
  | [] => []
  | _ :: _ => ' ' :: joinWords ws

/-- Python `" ".join(s.split())` on character lists. -/
def normChars (l : List Char) : List Char :=
  joinWords (pySplit l)

/-- `norm` from db_schema_yaml_validator/test_schema_yaml.py:
`None` normalizes to the empty string, a string to `" ".join(s.split())`. -/
def norm : Option String → String
  | none => ""
  | some s => String.mk (normChars s.data)

/-- `_norm_sql` from tools/normalize.py restricted to its string branch
(inside `canonicalize` it is only ever applied to values that are strings). -/
def normStr (s : String) : String :=
  String.mk (normChars s.data)

/-! Specification-side rendering of "folds all runs of whitespace (including
newlines) into single spaces and trims ends" (spec section 4.2). -/

/-- Modelled from the spec: rewrite every maximal run of whitespace characters
into one single space, leaving all other characters unchanged. -/
def collapseWs : List Char → List Char
  | [] => []
  | [c] => if isWs c then [' '] else [c]
  | c :: d :: cs =>
    if isWs c && isWs d then collapseWs (d :: cs)
    else (if isWs c then ' ' else c) :: collapseWs (d :: cs)

/-- Modelled from the spec: trim spaces from the left end. -/
def ltrimSp (l : List Char) : List Char :=
  l.dropWhile (fun c => c = ' ')

/-- Modelled from the spec: trim spaces from the right end. -/
def rtrimSp : List Char → List Char
  | [] => []
  | c :: cs =>
    match rtrimSp cs with
    | [] => if c = ' ' then [] else [c]
    | r => c :: r

/-- Modelled from the spec: fold every whitespace run into a single space and
trim both ends. -/
def specNormChars (l : List Char) : List Char :=
  rtrimSp (ltrimSp (collapseWs l))

/-- Rendering of a suffix of the input under the assumption that a word
character was just emitted (used to relate `normChars` with `specNormChars`). -/
def midJoin : List Char → List Char
  | [] => []
  | c :: cs =>
    if isWs c then
      match normChars cs with
      | [] => []
      | r => ' ' :: r
    else c :: midJoin cs

/-! ### String comparison and stable sorting (Python `sorted`) -/

/-- Python `<` on strings, as lexicographic comparison of code points. -/
def strLtB : List Char → List Char → Bool
  | [], [] => false
  | [], _ :: _ => true
  | _ :: _, [] => false
  | a :: as_, b :: bs => if a = b then strLtB as_ bs else decide (a < b)

/-- Python string `<`. -/
def sLt (a b : String) : Bool := strLtB a.data b.data

/-- Python string `<=` (total preorder used by `sorted`). -/
def sLe (a b : String) : Bool := !(sLt b a)

/-- Sorting relation induced by a string-valued key, as used by Python
`sorted(xs, key=k)`. -/
def keyRel (key : α → String) : α → α → Prop :=
  fun a b => sLe (key a) (key b) = true

instance (key : α → String) : DecidableRel (keyRel key) := fun _ _ =>
  inferInstanceAs (Decidable (_ = true))

/-- Python `sorted(l, key=key)` with a string key: a stable sort.  Insertion
sort computes the same list as CPython's stable sort for this total preorder. -/
def sortByKey (key : α → String) (l : List α) : List α :=
  l.insertionSort (keyRel key)

/-- Sorting relation induced by an integer key. -/
def keyRelI (key : α → Int) : α → α → Prop :=
  fun a b => key a ≤ key b

instance (key : α → Int) : DecidableRel (keyRelI key) := fun _ _ =>
  inferInstanceAs (Decidable (_ ≤ _))

/-- Python `sorted(l, key=key)` with an integer key (stable). -/
def sortByIntKey (key : α → Int) (l : List α) : List α :=
  l.insertionSort (keyRelI key)

/-- Python `sorted(l)` for element types that only provide `<` (tuples):
`a` precedes `b` unless `b < a`. -/
def sortByLtB (lt : α → α → Bool) (l : List α) : List α :=
  l.insertionSort (fun a b => lt b a = false)

/-- First-occurrence deduplication, the key order of a Python `dict` / the
element set of a Python `set` built from a list. -/
def dedupFirst [DecidableEq α] : List α → List α
  | [] => []
  | x :: xs => x :: (dedupFirst xs).filter (fun y => y ≠ x)

/-- Python `dict(pairs)` as an association list: keys in first-occurrence
order, each key bound to its last value. -/
def dictUp [DecidableEq κ] (l : List (κ × β)) : List (κ × β) :=
  (dedupFirst (l.map Prod.fst)).filterMap
    (fun k => ((l.reverse).lookup k).map (fun v => (k, v)))

/-- Python `set(a) == set(b)` for lists standing for sets. -/
def eqSetB [DecidableEq α] (a b : List α) : Bool :=
  a.all (fun x => decide (x ∈ b)) && b.all (fun x => decide (x ∈ a))

/-- Python `sorted(set(a) - set(b))` up to the final ordering: the distinct
elements of `a` not in `b`, sorted by the given `<`. -/
def setDiffSorted [DecidableEq α] (lt : α → α → Bool) (a b : List α) : List α :=
  sortByLtB lt ((dedupFirst a).filter (fun x => decide (x ∉ b)))

/-! ### Shell-style glob matching (Python `fnmatch.fnmatch` on POSIX)

`_should_ignore_table` / `_ignore_table` match the dotted string
`"schema.table"` against each configured pattern with `fnmatch`, which on a
POSIX platform is case-sensitive and anchored to the whole string.  The
pattern language is `*` (any run of characters), `?` (any one character), and
`[...]` character classes with ranges and `!` negation; a `[` without a
closing `]` is a literal `[`. -/

/-- Membership of a character in the body of a `[...]` class (ranges `a-b`
and single characters). -/
def classHolds : List Char → Char → Bool
  | a :: '-' :: b :: rest, c => (decide (a ≤ c) && decide (c ≤ b)) || classHolds rest c
  | a :: rest, c => (a = c) || classHolds rest c
  | [], _ => false

/-- Split a class body at the first closing `]`, returning the body and the
remainder of the pattern; `none` when the class is unterminated. -/
def splitClass : List Char → Option (List Char × List Char)
  | [] => none
  | ']' :: rest => some ([], rest)
  | c :: rest => (splitClass rest).map (fun p => (c :: p.1, p.2))

/-- Parse the inside of a `[...]` class: negation flag, body, remainder. -/
def parseClass (ps : List Char) : Option (Bool × List Char × List Char) :=
  match ps with
  | '!' :: rest => (splitClass rest).map (fun p => (true, p.1, p.2))
  | _ => (splitClass ps).map (fun p => (false, p.1, p.2))

/-- Glob pattern tokens. -/
inductive GTok where
  | lit : Char → GTok
  | star : GTok
  | qmark : GTok
  | cls : Bool → List Char → GTok
  deriving DecidableEq

/-- Fuel-driven tokenizer for glob patterns; each step consumes at least one
pattern character, so fuel `ps.length` always suffices. -/
def tokenizeF : Nat → List Char → List GTok
  | 0, _ => []
  | _, [] => []
  | fuel + 1, '*' :: ps => .star :: tokenizeF fuel ps
  | fuel + 1, '?' :: ps => .qmark :: tokenizeF fuel ps
  | fuel + 1, '[' :: ps =>
    match parseClass ps with
    | some (neg, body, rest) => .cls neg body :: tokenizeF fuel rest
    | none => .lit '[' :: tokenizeF fuel ps
  | fuel + 1, c :: ps => .lit c :: tokenizeF fuel ps

/-- Tokenize a glob pattern. -/
def tokenize (l : List Char) : List GTok :=
  tokenizeF l.length l

/-- Does `f` accept some suffix of the input? (Implements `*`: the characters
skipped before the chosen suffix are the run matched by the star.) -/
def anyTail (f : List Char → Bool) : List Char → Bool
  | [] => f []
  | c :: cs => f (c :: cs) || anyTail f cs

/-- Anchored matching of a token list against an input: the whole input must
be consumed by the whole pattern, characters compare by equality. -/
def tokMatch : List GTok → List Char → Bool
  | [], cs => cs.isEmpty
  | .star :: ps, cs => anyTail (tokMatch ps) cs
  | .qmark :: ps, cs =>
    match cs with
    | [] => false
    | _ :: t => tokMatch ps t
  | .lit p :: ps, cs =>
    match cs with
    | [] => false
    | c :: t => (p = c) && tokMatch ps t
  | .cls neg body :: ps, cs =>
    match cs with
    | [] => false
    | c :: t => (neg != classHolds body c) && tokMatch ps t

/-- `fnmatch.fnmatch(s, pat)` on a POSIX platform (case preserved). -/
def globMatch (pat s : String) : Bool :=
  tokMatch (tokenize pat.data) s.data

/-- `_should_ignore_table` from test_schema_json.py: does `"schema.table"`
match at least one configured ignore glob? -/
def shouldIgnoreTable (globs : List String) (schema table : String) : Bool :=
  globs.any (fun pat => globMatch pat (schema ++ "." ++ table))

/-! ### Generic trees and `canonicalize` (tools/normalize.py)

Python/JSON values are modelled as a mutual family `J` / `JList` / `KVList`
(arrays and objects carry their own list types so that all recursions are
structural).  An object is an association list: CPython dictionaries hold
their keys in insertion order and cannot hold a key twice. -/

mutual
inductive J where
  | null : J
  | jb : Bool → J
  | ji : Int → J
  | js : String → J
  | jarr : JList → J
  | jobj : KVList → J
inductive JList where
  | nil : JList
  | cons : J → JList → JList
inductive KVList where
  | nil : KVList
  | cons : String → J → KVList → KVList
end

/-- The elements of a `JList` as a Lean list. -/
def toListJ : JList → List J
  | .nil => []
  | .cons x xs => x :: toListJ xs

/-- A Lean list as a `JList`. -/
def ofListJ : List J → JList
  | [] => .nil
  | x :: xs => .cons x (ofListJ xs)

/-- The entries of a `KVList` as a Lean list of pairs. -/
def toListKV : KVList → List (String × J)
  | .nil => []
  | .cons k v r => (k, v) :: toListKV r

/-- A Lean list of pairs as a `KVList`. -/
def ofListKV : List (String × J) → KVList
  | [] => .nil
  | (k, v) :: r => .cons k v (ofListKV r)

mutual
/-- Boolean structural equality on trees. -/
def jEqB : J → J → Bool
  | .null, .null => true
  | .jb a, .jb b => a = b
  | .ji a, .ji b => a = b
  | .js a, .js b => a = b
  | .jarr a, .jarr b => jEqBL a b
  | .jobj a, .jobj b => jEqBKV a b
  | _, _ => false
/-- Boolean structural equality on array contents. -/
def jEqBL : JList → JList → Bool
  | .nil, .nil => true
  | .cons a as_, .cons b bs => jEqB a b && jEqBL as_ bs
  | _, _ => false
/-- Boolean structural equality on object contents. -/
def jEqBKV : KVList → KVList → Bool
  | .nil, .nil => true
  | .cons k v r, .cons k' v' r' => k = k' && jEqB v v' && jEqBKV r r'
  | _, _ => false
end

mutual
/-- Python `repr()` of a tree value (string escaping is not modelled: the
embedded strings are assumed quote- and backslash-free, which holds for all
inputs used below). -/
def pyRepr : J → String
  | .null => "None"
  | .jb true => "True"
  | .jb false => "False"
  | .ji n => toString n
  | .js s => "'" ++ s ++ "'"
  | .jarr xs => "[" ++ pyReprL xs ++ "]"
  | .jobj kvs => "\x7b" ++ pyReprKV kvs ++ "\x7d"
/-- Comma-separated `repr()`s of array elements. -/
def pyReprL : JList → String
  | .nil => ""
  | .cons x .nil => pyRepr x
  | .cons x (.cons y r) => pyRepr x ++ ", " ++ pyReprL (.cons y r)
/-- Comma-separated `repr()`s of object entries. -/
def pyReprKV : KVList → String
  | .nil => ""
  | .cons k v .nil => "'" ++ k ++ "': " ++ pyRepr v
  | .cons k v (.cons k' v' r) =>
    "'" ++ k ++ "': " ++ pyRepr v ++ ", " ++ pyReprKV (.cons k' v' r)
end

/-- Python `str()` of a tree value: the string itself at top level, `repr()`
otherwise.  This is the sort key `lambda x: str(x)` of `canonicalize`. -/
def pyStr : J → String
  | .js s => s
  | x => pyRepr x

/-- The total sort-key computation of `canonicalize`: Python `str()` never
raises on tree values. -/
def pyStrF : J → Option String :=
  fun x => some (pyStr x)

/-- Left-to-right computation of all sort keys, as `sorted(items, key=...)`
performs it: `none` as soon as one key computation raises. -/
def mapMOpt (f : J → Option String) : List J → Option (List String)
  | [] => some []
  | x :: xs =>
    match f x, mapMOpt f xs with
    | some s, some rest => some (s :: rest)
    | _, _ => none

/-- The value rewrite applied to an object entry after canonicalizing it:
apply `_norm_sql` when the key is in `normalize_sql_keys` and the value is a
string. -/
def maybeNorm (nk : List String) (k : String) (v : J) : J :=
  if k ∈ nk then
    match v with
    | .js s => .js (normStr s)
    | other => other
  else v

mutual
/-- `canonicalize` from tools/normalize.py, parameterized by the Python
`str()` conversion used as sort key.  `strF` returns `none` where Python
`str()` would raise; `sorted(items, key=str)` computes every key first, so a
raising key aborts the sort, the surrounding `try` catches the exception and
the list is returned in element order. -/
def canonF (ig nk : List String) (strF : J → Option String) : J → J
  | .null => .null
  | .jb b => .jb b
  | .ji n => .ji n
  | .js s => .js s
  | .jarr xs =>
    let items := toListJ (canonFL ig nk strF xs)
    match mapMOpt strF items with
    | some _ => .jarr (ofListJ (sortByKey (fun x => (strF x).getD "") items))
    | none => .jarr (ofListJ items)
  | .jobj kvs =>
    .jobj (ofListKV (sortByKey (fun kv => kv.1) (toListKV (canonFKV ig nk strF kvs))))
/-- Elementwise canonicalization of array contents. -/
def canonFL (ig nk : List String) (strF : J → Option String) : JList → JList
  | .nil => .nil
  | .cons x xs => .cons (canonF ig nk strF x) (canonFL ig nk strF xs)
/-- Object contents: drop ignored keys, canonicalize values, apply `_norm_sql`
to string values whose key is in `normalize_sql_keys`. -/
def canonFKV (ig nk : List String) (strF : J → Option String) : KVList → KVList
  | .nil => .nil
  | .cons k v r =>
    if k ∈ ig then canonFKV ig nk strF r
    else .cons k (maybeNorm nk k (canonF ig nk strF v)) (canonFKV ig nk strF r)
end

/-- The object-entry processing of `canonicalize` on association lists: drop
ignored keys, canonicalize and conditionally normalize the values. -/
def processKV (ig nk : List String) (strF : J → Option String)
    (m : List (String × J)) : List (String × J) :=
  (m.filter (fun kv => decide (kv.1 ∉ ig))).map
    (fun kv => (kv.1, maybeNorm nk kv.1 (canonF ig nk strF kv.2)))

/-- `canonicalize(obj, ignore_keys, normalize_sql_keys)`: the Python `str()`
key never raises on tree values. -/
def canonicalize (ig nk : List String) : J → J :=
  canonF ig nk pyStrF

mutual
/-- Canonicalization with no array sorting at all: what `canonicalize`
computes when every sort-key computation raises (the `except` branch). -/
def canonU (ig nk : List String) : J → J
  | .null => .null
  | .jb b => .jb b
  | .ji n => .ji n
  | .js s => .js s
  | .jarr xs => .jarr (canonUL ig nk xs)
  | .jobj kvs =>
    .jobj (ofListKV (sortByKey (fun kv => kv.1) (toListKV (canonUKV ig nk kvs))))
/-- Elementwise unsorted canonicalization of array contents. -/
def canonUL (ig nk : List String) : JList → JList
  | .nil => .nil
  | .cons x xs => .cons (canonU ig nk x) (canonUL ig nk xs)
/-- Unsorted canonicalization of object contents. -/
def canonUKV (ig nk : List String) : KVList → KVList
  | .nil => .nil
  | .cons k v r =>
    if k ∈ ig then canonUKV ig nk r
    else .cons k (maybeNorm nk k (canonU ig nk v)) (canonUKV ig nk r)
end

mutual
/-- Trees equal up to permuting the elements of array-typed fields, at any
depth (atoms equal, objects entrywise equal up to the relation, an array
related to any permutation of an elementwise-related array). -/
inductive PEq : J → J → Prop where
  | null : PEq .null .null
  | jb : ∀ b, PEq (.jb b) (.jb b)
  | ji : ∀ n, PEq (.ji n) (.ji n)
  | js : ∀ s, PEq (.js s) (.js s)
  | jarr : ∀ {xs ys zs}, PEqL xs zs → List.Perm zs (toListJ ys) → PEq (.jarr xs) (.jarr ys)
  | jobj : ∀ {kvs kvs'}, PEqKV kvs kvs' → PEq (.jobj kvs) (.jobj kvs')
/-- Elementwise `PEq` between array contents and a Lean list. -/
inductive PEqL : JList → List J → Prop where
  | nil : PEqL .nil []
  | cons : ∀ {x y xs ys}, PEq x y → PEqL xs ys → PEqL (.cons x xs) (y :: ys)
/-- Entrywise `PEq` between object contents: equal keys, related values. -/
inductive PEqKV : KVList → KVList → Prop where
  | nil : PEqKV .nil .nil
  | cons : ∀ (k : String) {v v' r r'}, PEq v v' → PEqKV r r' → PEqKV (.cons k v r) (.cons k v' r')
end

/-- Key-injectivity of a list of (already canonicalized) array elements:
distinct elements must have distinct Python `str()` keys. -/
def injPairsB : List J → Bool
  | [] => true
  | x :: t => t.all (fun y => !(decide (pyStr x = pyStr y)) || jEqB x y) && injPairsB t

mutual
/-- Every array of the tree, after canonicalizing its elements, has a
key-injective element list (distinct elements, distinct `str()` keys). -/
def keysInj (ig nk : List String) : J → Bool
  | .null => true
  | .jb _ => true
  | .ji _ => true
  | .js _ => true
  | .jarr xs => keysInjL ig nk xs && injPairsB (toListJ (canonFL ig nk pyStrF xs))
  | .jobj kvs => keysInjKV ig nk kvs
/-- `keysInj` on every array element. -/
def keysInjL (ig nk : List String) : JList → Bool
  | .nil => true
  | .cons x xs => keysInj ig nk x && keysInjL ig nk xs
/-- `keysInj` on every object value. -/
def keysInjKV (ig nk : List String) : KVList → Bool
  | .nil => true
  | .cons _ v r => keysInj ig nk v && keysInjKV ig nk r
end

/-! ### Comparator data model (test_schema_yaml.py / test_schema_json.py)

Each check prints `[FAIL] ...` lines and sets its return code to 1 at the
same program points; a finding value is emitted exactly where the code
prints, and the return-code component mirrors the code's `rc` updates. -/

/-- A scalar in a column-metadata dictionary: string, integer, or Python
`None` (from a nullable database column or an absent YAML/JSON field). -/
inductive Val where
  | vs : String → Val
  | vi : Int → Val
  | vnone : Val
  deriving DecidableEq

/-- Python `x or None`: falsy values (`None`, `""`, `0`) collapse to `None`.
This is the normalization applied on both sides of `(wv or None) != (av or None)`. -/
def orNone : Val → Val
  | .vs s => if s = "" then .vnone else .vs s
  | .vi n => if n = 0 then .vnone else .vi n
  | .vnone => .vnone

/-- Python `a or b` for an optional string `a`: `b` when `a` is `None` or empty. -/
def orS : Option String → String → String
  | some s, d => if s = "" then d else s
  | none, d => d

/-- An optional database integer as a metadata value. -/
def vOfInt : Option Int → Val
  | some n => .vi n
  | none => .vnone

/-- An optional database string as a metadata value. -/
def vOfStr : Option String → Val
  | some s => .vs s
  | none => .vnone

/-- A row of `SQL_LIST_COLUMNS` (the attributes the checkers read). -/
structure ColRow where
  column_name : String
  udt_name : Option String
  data_type : Option String
  is_nullable : Option String
  character_maximum_length : Option Int
  numeric_precision : Option Int
  numeric_scale : Option Int
  datetime_precision : Option Int
  column_default : Option String
  is_identity : Option String
  deriving DecidableEq

/-- The metadata dictionary built for one live column
(`actual[r.column_name] = ...` in both table checkers). -/
def actualMeta (r : ColRow) : List (String × Val) :=
  [ ("data_type", .vs (orS r.udt_name (orS r.data_type ""))),
    ("is_nullable", .vs (orS r.is_nullable "")),
    ("char_max", vOfInt r.character_maximum_length),
    ("num_precision", vOfInt r.numeric_precision),
    ("num_scale", vOfInt r.numeric_scale),
    ("datetime_precision", vOfInt r.datetime_precision),
    ("default", vOfStr r.column_default),
    ("is_identity", .vs (orS r.is_identity "")) ]

/-- The `actual` dictionary: live columns keyed by column name. -/
def actualCols (rows : List ColRow) : List (String × List (String × Val)) :=
  dictUp (rows.map (fun r => (r.column_name, actualMeta r)))

/-- A snapshot column: its name and the remaining entries of its metadata
dictionary (the checkers iterate the dictionary and skip the `name` entry). -/
structure WantCol where
  name : String
  fields : List (String × Val)
  deriving DecidableEq

/-- A snapshot primary key. -/
structure PKWant where
  name : String
  columns : List String
  deriving DecidableEq

/-- A snapshot unique constraint. -/
structure UqWant where
  name : String
  columns : List String
  deriving DecidableEq

/-- A snapshot foreign key (column mappings are `(local, remote)` pairs). -/
structure FkWant where
  name : String
  ref_schema : String
  ref_table : String
  columns : List (String × String)
  deriving DecidableEq

/-- A snapshot table entry. -/
structure Table where
  schema : String
  name : String
  columns : List WantCol
  primary_key : Option PKWant
  uniques : List UqWant
  foreign_keys : List FkWant
  deriving DecidableEq

/-- A row of `SQL_PK` / `SQL_UNIQUES` in the YAML checker: the aggregated
column-name array is exposed as attribute `columns`. -/
structure KeyRow where
  constraint_name : String
  columns : List String
  deriving DecidableEq

/-- A row of `SQL_FKS`. -/
structure FKRow where
  constraint_name : String
  column_name : String
  foreign_column_name : String
  foreign_table_schema : String
  foreign_table_name : String
  ordinal_position : Option Int
  deriving DecidableEq

/-- A row of `SQL_VIEWS`. -/
structure ViewRow where
  table_schema : String
  table_name : String
  definition : Option String
  deriving DecidableEq

/-- A row of `SQL_FUNCTIONS`. -/
structure FunRow where
  schema : String
  name : String
  args : Option String
  definition : Option String
  deriving DecidableEq

/-- A row of `SQL_SEQUENCES`. -/
structure SeqRow where
  sequence_schema : String
  sequence_name : String
  deriving DecidableEq

/-- A row of `SQL_SEQUENCE_OWNED_BY`. -/
structure SeqOwnRow where
  schema_name : Option String
  sequence_name : String
  table_schema : Option String
  table_name : Option String
  column_name : Option String
  deriving DecidableEq

/-- A snapshot view entry (`definition_norm` may be a YAML null). -/
structure ViewSnap where
  schema : String
  name : String
  definition_norm : Option String
  deriving DecidableEq

/-- A snapshot function entry. -/
structure FunSnap where
  schema : String
  name : String
  args : String
  definition_hash : String
  deriving DecidableEq

/-- A snapshot sequence-ownership entry (the exporter always writes strings,
defaulting absent owner fields to `""`). -/
structure SeqOwnSnap where
  schema : String
  sequence : String
  table_schema : String
  table : String
  column : String
  deriving DecidableEq

/-- The YAML snapshot consumed by test_schema_yaml.py.  `roles` is the list
of the `name` fields of the snapshot role entries. -/
structure SnapY where
  tables : List Table
  views : List ViewSnap
  functions : List FunSnap
  roles : List String
  role_memberships : List (String × String)
  sequences : List (String × String)
  sequence_ownerships : List SeqOwnSnap

/-- The live database connection of the YAML checker, as the rowsets each
query returns (queries taking an `include_schemas` list are functions of it). -/
structure DBY where
  cols : String → String → List ColRow
  pk : String → String → List KeyRow
  uqs : String → String → List KeyRow
  fks : String → String → List FKRow
  views : List String → List ViewRow
  functions : List String → List FunRow
  roles : List String
  role_members : List (String × String)
  sequences : List String → List SeqRow
  seq_owned : List SeqOwnRow

/-- A grouped foreign key as compared: `(name, ref_schema, ref_table,
[(local, remote), ...])`. -/
abbrev FkTup := String × String × String × List (String × String)

/-- A compared sequence-ownership row:
`(schema, sequence, table_schema, table, column)`. -/
abbrev SeqOwnTup := String × String × String × String × String

/-- Python `<` on string pairs (lexicographic). -/
def ltPairS (a b : String × String) : Bool :=
  sLt a.1 b.1 || (a.1 = b.1 && sLt a.2 b.2)

/-- Python `<` on tuples of strings of equal length (lexicographic). -/
def ltListStr : List String → List String → Bool
  | [], [] => false
  | [], _ :: _ => true
  | _ :: _, [] => false
  | a :: as_, b :: bs => sLt a b || (a = b && ltListStr as_ bs)

/-- Python `<` on lists of string pairs (lexicographic). -/
def ltListPairS : List (String × String) → List (String × String) → Bool
  | [], [] => false
  | [], _ :: _ => true
  | _ :: _, [] => false
  | a :: as_, b :: bs => ltPairS a b || (a = b && ltListPairS as_ bs)

/-- Python `<` on grouped foreign-key tuples. -/
def ltFkTup (a b : FkTup) : Bool :=
  sLt a.1 b.1 || (a.1 = b.1 &&
    (sLt a.2.1 b.2.1 || (a.2.1 = b.2.1 &&
      (sLt a.2.2.1 b.2.2.1 || (a.2.2.1 = b.2.2.1 && ltListPairS a.2.2.2 b.2.2.2)))))

/-- Python `<` on compared sequence-ownership tuples. -/
def ltSeqOwnTup (a b : SeqOwnTup) : Bool :=
  sLt a.1 b.1 || (a.1 = b.1 &&
    (sLt a.2.1 b.2.1 || (a.2.1 = b.2.1 &&
      (sLt a.2.2.1 b.2.2.1 || (a.2.2.1 = b.2.2.1 &&
        (sLt a.2.2.2.1 b.2.2.2.1 || (a.2.2.2.1 = b.2.2.2.1 && sLt a.2.2.2.2 b.2.2.2.2)))))))

/-- Findings of the YAML checker, one constructor per `[FAIL]` print site. -/
inductive YFind where
  | missingTable (schema name : String)
  | missingColumn (schema name col : String)
  | columnMismatch (schema name col field : String) (want got : Val)
  | unexpectedColumns (schema name : String) (cols : List String)
  | missingPrimaryKey (schema name : String)
  | primaryKeyDiffer (schema name : String) (want got : List String)
  | unexpectedPrimaryKey (schema name : String)
  | uniquesDiffer (schema name : String) (want got : List (List String))
  | fksDiffer (schema name : String) (want got : List FkTup)
  | missingView (schema name : String)
  | viewDiffers (schema name : String)
  | missingFunction (schema name args : String)
  | functionChanged (schema name args : String)
  | missingRoles (roles : List String)
  | missingRoleMemberships (ms : List (String × String))
  | unexpectedRoleMemberships (ms : List (String × String))
  | missingSequences (ss : List (String × String))
  | missingSeqOwnerships (os : List SeqOwnTup)
  | unexpectedSeqOwnerships (os : List SeqOwnTup)
  deriving DecidableEq

/-- One print site: when `cond` holds the code prints `f` and sets `rc = 1`. -/
def fSite (cond : Bool) (f : φ) : Nat × List φ :=
  if cond then (1, [f]) else (0, [])

/-- Sequencing of two checked regions: return codes combine like the code's
`rc = 1` assignments (`rc` is 1 iff some site fired), output accumulates. -/
def fComb (a b : Nat × List φ) : Nat × List φ :=
  (max a.1 b.1, a.2 ++ b.2)

/-- Sequencing of a list of checked regions. -/
def fAll (l : List (Nat × List φ)) : Nat × List φ :=
  l.foldr fComb (0, [])

/-- The reporter invariant of a checked region: the return code is 0 exactly
when no finding was printed. -/
def rcOk (p : Nat × List φ) : Prop :=
  p.1 = 0 ↔ p.2 = []

/-- The grouped live foreign keys of one table (`groups` /
`have_fks` in both table checkers): rows grouped by constraint name in
first-arrival order, each group sorted by its first tuple component
(the local column name), the referenced schema/table taken from the first
sorted row.  Groups are nonempty by construction; the `[]` branch is
unreachable. -/
def haveFksOf (rows : List FKRow) : List FkTup :=
  (dedupFirst (rows.map (fun r => r.constraint_name))).map (fun cname =>
    let lst := (rows.filter (fun r => decide (r.constraint_name = cname))).map
      (fun r => (r.column_name, r.foreign_column_name, r.foreign_table_schema, r.foreign_table_name))
    let lstS := sortByKey (fun x => x.1) lst
    match lstS with
    | [] => (cname, "", "", [])
    | x :: _ => (cname, x.2.2.1, x.2.2.2, lstS.map (fun y => (y.1, y.2.1))))

/-- The body of `check_tables_columns` for one snapshot table (the loop body
over `want_tables.items()`).  A table with no live columns short-circuits to
a single missing-table finding. -/
def checkOneTableY (db : DBY) (schema name : String) (t : Table) : Nat × List YFind :=
  let rows := db.cols schema name
  if rows = [] then fSite true (.missingTable schema name)
  else
    let actual := actualCols rows
    let wantCols := dictUp (t.columns.map (fun c => (c.name, c)))
    let colPart := fAll (wantCols.map (fun cm =>
      match actual.lookup cm.1 with
      | none => fSite true (.missingColumn schema name cm.1)
      | some am =>
        fAll (cm.2.fields.map (fun kv =>
          if kv.1 = "name" then (0, [])
          else
            fSite (decide (orNone kv.2 ≠ orNone ((am.lookup kv.1).getD .vnone)))
              (.columnMismatch schema name cm.1 kv.1 kv.2 ((am.lookup kv.1).getD .vnone))))))
    let extra := (actual.map Prod.fst).filter
      (fun c => decide (c ∉ wantCols.map Prod.fst))
    let extraPart := fSite (decide (extra ≠ []))
      (.unexpectedColumns schema name (sortByKey id extra))
    let pkPart :=
      match t.primary_key, db.pk schema name with
      | some _, [] => fSite true (.missingPrimaryKey schema name)
      | some pk, r0 :: _ =>
        fSite (decide (pk.columns ≠ r0.columns))
          (.primaryKeyDiffer schema name pk.columns r0.columns)
      | none, _ :: _ => fSite true (.unexpectedPrimaryKey schema name)
      | none, [] => (0, [])
    let wantUqs := sortByLtB ltListStr (t.uniques.map (fun u => u.columns))
    let haveUqs := sortByLtB ltListStr ((db.uqs schema name).map (fun u => u.columns))
    let uqPart := fSite (decide (wantUqs ≠ haveUqs))
      (.uniquesDiffer schema name wantUqs haveUqs)
    let wantFks := sortByLtB ltFkTup (t.foreign_keys.map
      (fun fk => (fk.name, fk.ref_schema, fk.ref_table, fk.columns)))
    let haveFks := sortByLtB ltFkTup (haveFksOf (db.fks schema name))
    let fkPart := fSite (decide (wantFks ≠ haveFks))
      (.fksDiffer schema name wantFks haveFks)
    fComb colPart (fComb extraPart (fComb pkPart (fComb uqPart fkPart)))

/-- `check_tables_columns`: iterate the snapshot tables keyed by
`(schema, name)` in dictionary order. -/
def checkTablesColumns (db : DBY) (snap : SnapY) : Nat × List YFind :=
  fAll ((dictUp (snap.tables.map (fun t => ((t.schema, t.name), t)))).map
    (fun kt => checkOneTableY db kt.1.1 kt.1.2 kt.2))

/-- `check_views`. -/
def checkViews (db : DBY) (snap : SnapY) : Nat × List YFind :=
  let want := dictUp (snap.views.map (fun v => ((v.schema, v.name), norm v.definition_norm)))
  if want = [] then (0, [])
  else
    let rows := db.views (dedupFirst (want.map (fun kv => kv.1.1)))
    let haveD := dictUp (rows.map (fun r => ((r.table_schema, r.table_name), norm r.definition)))
    fAll (want.map (fun kv =>
      match haveD.lookup kv.1 with
      | none => fSite true (.missingView kv.1.1 kv.1.2)
      | some hdef => fSite (decide (hdef ≠ kv.2)) (.viewDiffers kv.1.1 kv.1.2)))

/-- `check_functions`; `hashFn` stands for the SHA-256 hex digest, an opaque
pure function of the normalized definition text. -/
def checkFunctions (db : DBY) (snap : SnapY) (hashFn : String → String) : Nat × List YFind :=
  let want := dictUp (snap.functions.map
    (fun f => ((f.schema, f.name, f.args), f.definition_hash)))
  if want = [] then (0, [])
  else
    let rows := db.functions (dedupFirst (want.map (fun kv => kv.1.1)))
    let haveD := dictUp (rows.map
      (fun r => ((r.schema, r.name, orS r.args ""), hashFn (norm r.definition))))
    fAll (want.map (fun kv =>
      match haveD.lookup kv.1 with
      | none => fSite true (.missingFunction kv.1.1 kv.1.2.1 kv.1.2.2)
      | some h => fSite (decide (h ≠ kv.2)) (.functionChanged kv.1.1 kv.1.2.1 kv.1.2.2)))

/-- `check_roles`: missing roles (want minus have only), and both directions
for role memberships. -/
def checkRoles (db : DBY) (snap : SnapY) : Nat × List YFind :=
  let missing := setDiffSorted sLt snap.roles db.roles
  let rolePart := fSite (decide (missing ≠ [])) (.missingRoles missing)
  let memPart :=
    if eqSetB snap.role_memberships db.role_members then (0, [])
    else
      let miss := setDiffSorted ltPairS snap.role_memberships db.role_members
      let extra := setDiffSorted ltPairS db.role_members snap.role_memberships
      fComb (fSite (decide (miss ≠ [])) (.missingRoleMemberships miss))
        (fSite (decide (extra ≠ [])) (.unexpectedRoleMemberships extra))
  fComb rolePart memPart

/-- `check_sequences`: missing sequences (want minus have only), and both
directions for sequence ownerships; live ownership rows with a null owning
schema are dropped. -/
def checkSequences (db : DBY) (snap : SnapY) : Nat × List YFind :=
  let want := dedupFirst snap.sequences
  let seqPart :=
    if want = [] then (0, [])
    else
      let rows := db.sequences (dedupFirst (want.map (fun p => p.1)))
      let haveS := rows.map (fun r => (r.sequence_schema, r.sequence_name))
      let missing := setDiffSorted ltPairS want haveS
      fSite (decide (missing ≠ [])) (.missingSequences missing)
  let wantOwns := dedupFirst (snap.sequence_ownerships.map
    (fun o => (o.schema, o.sequence, o.table_schema, o.table, o.column)))
  let ownPart :=
    if wantOwns = [] then (0, [])
    else
      let haveOwns := db.seq_owned.filterMap (fun r =>
        match r.schema_name with
        | none => none
        | some s => some ((s, r.sequence_name, orS r.table_schema "",
            orS r.table_name "", orS r.column_name "") : SeqOwnTup))
      if eqSetB wantOwns haveOwns then (0, [])
      else
        let miss := setDiffSorted ltSeqOwnTup wantOwns haveOwns
        let extra := setDiffSorted ltSeqOwnTup haveOwns wantOwns
        fComb (fSite (decide (miss ≠ [])) (.missingSeqOwnerships miss))
          (fSite (decide (extra ≠ [])) (.unexpectedSeqOwnerships extra))
  fComb seqPart ownPart

/-- `main` of test_schema_yaml.py: run all five checks, or the return codes
together. -/
def runChecksY (db : DBY) (snap : SnapY) (hashFn : String → String) : Nat × List YFind :=
  fComb (checkTablesColumns db snap)
    (fComb (checkViews db snap)
      (fComb (checkFunctions db snap hashFn)
        (fComb (checkRoles db snap) (checkSequences db snap))))

/-- The process exit status of `main`: `sys.exit(1)` when `rc` is nonzero,
`sys.exit(0)` otherwise. -/
def exitCodeY (db : DBY) (snap : SnapY) (hashFn : String → String) : Nat :=
  if (runChecksY db snap hashFn).1 = 0 then 0 else 1

/-! ### JSON checker with ignore rules
(sql_schema_json_validator1/.../test_schema_json.py) -/

/-- The ignore configuration read by `main` of test_schema_json.py. -/
structure IgnoreCfg where
  tables : List String
  columns : List (String × List String)
  column_fields : List String

/-- `_ignored_column`: is the column listed under `"schema.table"` in the
ignore map? -/
def ignoredColumn (cfgCols : List (String × List String)) (schema table col : String) : Bool :=
  cfgCols.any (fun kv => decide (kv.1 = schema ++ "." ++ table) && decide (col ∈ kv.2))

/-- The value under `colnames` in a PK/UNIQUE row mapping of the JSON
checker: a single name or an array of names. -/
inductive NameVal where
  | one : String → NameVal
  | many : List String → NameVal
  deriving DecidableEq

/-- `_as_name_list`: `None` is the empty list, a list is itself, anything
else is a one-element list. -/
def asNameList : Option NameVal → List String
  | none => []
  | some (.one s) => [s]
  | some (.many l) => l

/-- A row of `SQL_PK` / `SQL_UNIQUES` in the JSON checker
(`row._mapping.get('colnames')`). -/
structure KeyRowJ where
  colnames : Option NameVal
  deriving DecidableEq

/-- A row of `SQL_TRIGGERS`. -/
structure TrigRow where
  table_schema : String
  table_name : String
  trigger_name : String
  action_timing : Option String
  event_manipulation : String
  deriving DecidableEq

/-- A snapshot trigger entry of triggers.json. -/
structure TrigSnap where
  table_schema : String
  table : String
  name : String
  timing : String
  events : List String
  deriving DecidableEq

/-- A compared trigger:
`(table_schema, table, name, timing, sorted events)`. -/
abbrev TrigTup := String × String × String × String × List String

/-- Python `<` on compared trigger tuples. -/
def ltTrigTup (a b : TrigTup) : Bool :=
  sLt a.1 b.1 || (a.1 = b.1 &&
    (sLt a.2.1 b.2.1 || (a.2.1 = b.2.1 &&
      (sLt a.2.2.1 b.2.2.1 || (a.2.2.1 = b.2.2.1 &&
        (sLt a.2.2.2.1 b.2.2.2.1 || (a.2.2.2.1 = b.2.2.2.1 &&
          ltListStr a.2.2.2.2 b.2.2.2.2)))))))

/-- The live database connection of the JSON checker. -/
structure DBJ where
  cols : String → String → List ColRow
  pk : String → String → List KeyRowJ
  uqs : String → String → List KeyRowJ
  fks : String → String → List FKRow
  triggers : List String → List String → List TrigRow
  sequences : List String → List SeqRow
  seq_owned : List SeqOwnRow

/-- Findings of the JSON checker, one constructor per `[FAIL]` print site of
the embedded categories. -/
inductive JFind where
  | missingTable (schema name : String)
  | missingColumn (schema name col : String)
  | columnMismatch (schema name col field : String) (want got : Val)
  | unexpectedColumns (schema name : String) (cols : List String)
  | missingPrimaryKey (schema name : String)
  | primaryKeyDiffer (schema name : String) (want got : List String)
  | unexpectedPrimaryKey (schema name : String)
  | uniquesDiffer (schema name : String) (want got : List (List String))
  | fksDiffer (schema name : String) (want got : List FkTup)
  | missingTriggers (ts : List TrigTup)
  | unexpectedTriggers (ts : List TrigTup)
  | missingSequences (ss : List (String × String))
  | missingSeqOwnerships (os : List SeqOwnTup)
  | unexpectedSeqOwnerships (os : List SeqOwnTup)
  deriving DecidableEq

/-- Does a finding reference table `schema.table`?  The table-category
findings are keyed by the table being checked; trigger findings list the
tables their triggers sit on; sequence-ownership findings list the owning
tables; missing-sequence findings reference no table. -/
def referencesTable (f : JFind) (s t : String) : Bool :=
  match f with
  | .missingTable a b => decide (a = s) && decide (b = t)
  | .missingColumn a b _ => decide (a = s) && decide (b = t)
  | .columnMismatch a b _ _ _ _ => decide (a = s) && decide (b = t)
  | .unexpectedColumns a b _ => decide (a = s) && decide (b = t)
  | .missingPrimaryKey a b => decide (a = s) && decide (b = t)
  | .primaryKeyDiffer a b _ _ => decide (a = s) && decide (b = t)
  | .unexpectedPrimaryKey a b => decide (a = s) && decide (b = t)
  | .uniquesDiffer a b _ _ => decide (a = s) && decide (b = t)
  | .fksDiffer a b _ _ => decide (a = s) && decide (b = t)
  | .missingTriggers l => l.any (fun x => decide (x.1 = s) && decide (x.2.1 = t))
  | .unexpectedTriggers l => l.any (fun x => decide (x.1 = s) && decide (x.2.1 = t))
  | .missingSequences _ => false
  | .missingSeqOwnerships l => l.any (fun x => decide (x.2.2.1 = s) && decide (x.2.2.2.1 = t))
  | .unexpectedSeqOwnerships l => l.any (fun x => decide (x.2.2.1 = s) && decide (x.2.2.2.1 = t))

/-- The body of `cmp_tables` for one snapshot table file: tables matching an
ignore glob are skipped before any query; otherwise as in the YAML checker,
with ignored columns removed from the expected set and from the extra-column
set and ignored column fields skipped. -/
def cmpOneTableJ (cfg : IgnoreCfg) (db : DBJ) (t : Table) : Nat × List JFind :=
  if shouldIgnoreTable cfg.tables t.schema t.name then (0, [])
  else
    let schema := t.schema
    let name := t.name
    let rows := db.cols schema name
    if rows = [] then fSite true (.missingTable schema name)
    else
      let actual := actualCols rows
      let wantCols := dictUp ((t.columns.filter
        (fun c => !ignoredColumn cfg.columns schema name c.name)).map (fun c => (c.name, c)))
      let colPart := fAll (wantCols.map (fun cm =>
        match actual.lookup cm.1 with
        | none => fSite true (.missingColumn schema name cm.1)
        | some am =>
          fAll (cm.2.fields.map (fun kv =>
            if kv.1 = "name" then (0, [])
            else if kv.1 ∈ cfg.column_fields then (0, [])
            else
              fSite (decide (orNone kv.2 ≠ orNone ((am.lookup kv.1).getD .vnone)))
                (.columnMismatch schema name cm.1 kv.1 kv.2 ((am.lookup kv.1).getD .vnone))))))
      let extra := ((actual.map Prod.fst).filter
        (fun c => !ignoredColumn cfg.columns schema name c)).filter
          (fun c => decide (c ∉ wantCols.map Prod.fst))
      let extraPart := fSite (decide (extra ≠ []))
        (.unexpectedColumns schema name (sortByKey id extra))
      let pkPart :=
        match t.primary_key, db.pk schema name with
        | some _, [] => fSite true (.missingPrimaryKey schema name)
        | some pk, r0 :: _ =>
          fSite (decide (pk.columns ≠ asNameList r0.colnames))
            (.primaryKeyDiffer schema name pk.columns (asNameList r0.colnames))
        | none, _ :: _ => fSite true (.unexpectedPrimaryKey schema name)
        | none, [] => (0, [])
      let wantUqs := sortByLtB ltListStr (t.uniques.map (fun u => u.columns))
      let haveUqs := sortByLtB ltListStr ((db.uqs schema name).map
        (fun u => asNameList u.colnames))
      let uqPart := fSite (decide (wantUqs ≠ haveUqs))
        (.uniquesDiffer schema name wantUqs haveUqs)
      let wantFks := sortByLtB ltFkTup (t.foreign_keys.map
        (fun fk => (fk.name, fk.ref_schema, fk.ref_table, fk.columns)))
      let haveFks := sortByLtB ltFkTup (haveFksOf (db.fks schema name))
      let fkPart := fSite (decide (wantFks ≠ haveFks))
        (.fksDiffer schema name wantFks haveFks)
      fComb colPart (fComb extraPart (fComb pkPart (fComb uqPart fkPart)))

/-- `cmp_tables`: the snapshot table files in sorted filename order. -/
def cmpTables (cfg : IgnoreCfg) (tablesJ : List Table) (db : DBJ) : Nat × List JFind :=
  fAll ((sortByKey (fun t => t.schema ++ "." ++ t.name ++ ".json") tablesJ).map
    (cmpOneTableJ cfg db))

/-- `cmp_triggers`: expected and live triggers are filtered by the
ignore-table globs, live rows are grouped by `(table_schema, table, name)`
with the last row's timing and the sorted set of event types, and the two
sets are compared in both directions. -/
def cmpTriggers (cfg : IgnoreCfg) (snapTrigs : Option (List TrigSnap)) (db : DBJ)
    (inc exc : List String) : Nat × List JFind :=
  match snapTrigs with
  | none => (0, [])
  | some ts =>
    let want := (ts.map (fun t =>
        ((t.table_schema, t.table, t.name, t.timing, t.events) : TrigTup))).filter
      (fun w => !shouldIgnoreTable cfg.tables w.1 w.2.1)
    let rows := (db.triggers inc exc).filter
      (fun r => !shouldIgnoreTable cfg.tables r.table_schema r.table_name)
    let keys := dedupFirst (rows.map (fun r => (r.table_schema, r.table_name, r.trigger_name)))
    let haveSet := keys.map (fun k =>
      let rk := rows.filter
        (fun r => decide ((r.table_schema, r.table_name, r.trigger_name) = k))
      let timing := orS (rk.getLast?.bind (fun r => r.action_timing)) ""
      let events := sortByKey id (dedupFirst (rk.map (fun r => r.event_manipulation)))
      ((k.1, k.2.1, k.2.2, timing, events) : TrigTup))
    if eqSetB want haveSet then (0, [])
    else
      let miss := setDiffSorted ltTrigTup want haveSet
      let extra := setDiffSorted ltTrigTup haveSet want
      fComb (fSite (decide (miss ≠ [])) (.missingTriggers miss))
        (fSite (decide (extra ≠ [])) (.unexpectedTriggers extra))

/-- `cmp_sequences` of the JSON checker: missing sequences (one direction),
then sequence ownerships in both directions.  No ignore filtering is applied
anywhere in this category. -/
def cmpSequencesJ (snapSeqs : Option (List (String × String)))
    (snapOwns : Option (List SeqOwnSnap)) (db : DBJ) : Nat × List JFind :=
  let seqPart :=
    match snapSeqs with
    | none => (0, [])
    | some ss =>
      let want := dedupFirst ss
      if want = [] then (0, [])
      else
        let rows := db.sequences (dedupFirst (want.map (fun p => p.1)))
        let haveS := rows.map (fun r => (r.sequence_schema, r.sequence_name))
        let missing := setDiffSorted ltPairS want haveS
        fSite (decide (missing ≠ [])) (.missingSequences missing)
  let ownPart :=
    match snapOwns with
    | none => (0, [])
    | some os =>
      let wantOwns := dedupFirst (os.map
        (fun o => ((o.schema, o.sequence, o.table_schema, o.table, o.column) : SeqOwnTup)))
      let haveOwns := db.seq_owned.filterMap (fun r =>
        match r.schema_name with
        | none => none
        | some s => some ((s, r.sequence_name, orS r.table_schema "",
            orS r.table_name "", orS r.column_name "") : SeqOwnTup))
      if eqSetB wantOwns haveOwns then (0, [])
      else
        let miss := setDiffSorted ltSeqOwnTup wantOwns haveOwns
        let extra := setDiffSorted ltSeqOwnTup haveOwns wantOwns
        fComb (fSite (decide (miss ≠ [])) (.missingSeqOwnerships miss))
          (fSite (decide (extra ≠ [])) (.unexpectedSeqOwnerships extra))
  fComb seqPart ownPart

/-! ### Foreign-key grouping in the snapshot builder
(sql_schema_json_validator/export_schema_json.py `export_table`) -/

/-- A foreign-key record written to the snapshot. -/
structure FkRec where
  name : String
  ref_schema : String
  ref_table : String
  columns : List (String × String)
  deriving DecidableEq

/-- The foreign-key grouping of `export_table`: rows grouped by constraint
name in first-arrival order, each group sorted by `ordinal_position or 0`,
the referenced schema/table taken from the first sorted row, the column
mappings `(local, remote)` in sorted order.  Groups are nonempty by
construction; the `[]` branch is unreachable. -/
def buildFks (rows : List FKRow) : List FkRec :=
  (dedupFirst (rows.map (fun r => r.constraint_name))).map (fun cname =>
    let grp := rows.filter (fun r => decide (r.constraint_name = cname))
    let sortedG := sortByIntKey (fun r => (r.ordinal_position).getD 0) grp
    match sortedG with
    | [] => { name := cname, ref_schema := "", ref_table := "", columns := [] }
    | r0 :: _ =>
      { name := cname
        ref_schema := r0.foreign_table_schema
        ref_table := r0.foreign_table_name
        columns := sortedG.map (fun r => (r.column_name, r.foreign_column_name)) })

/-! ## Theorems -/

/-! ### The normalizer folds whitespace runs and trims (C1) -/

theorem wordsR_ws {c : Char} (h : isWs c = true) (cs : List Char) :
    wordsR (c :: cs) = [] :: wordsR cs := by
  simp [wordsR, h]

theorem pySplit_ws {c : Char} (h : isWs c = true) (cs : List Char) :
    pySplit (c :: cs) = pySplit cs := by
  simp [pySplit, wordsR, h]

theorem normChars_ws {c : Char} (h : isWs c = true) (cs : List Char) :
    normChars (c :: cs) = normChars cs := by
  simp [normChars, pySplit_ws h]

theorem joinWords_cons (w : List Char) (ws : List (List Char)) :
    joinWords (w :: ws) = w ++ sepJoin ws := by
  cases ws <;> simp [joinWords, sepJoin]

theorem mem_pySplit_ne {w : List Char} {l : List Char} (h : w ∈ pySplit l) : w ≠ [] := by
  have := List.of_mem_filter h
  simpa using this

theorem filterNe_cons_of_ne {w : List Char} {ws : List (List Char)} (h : w ≠ []) :
    List.filter (fun x => x ≠ []) (w :: ws) = w :: List.filter (fun x => x ≠ []) ws := by
  simp [List.filter_cons, h]

theorem wordsR_cons_step {c : Char} (hc : isWs c = false) (cs : List Char) :
    wordsR (c :: cs) =
      match wordsR cs with
      | [] => [[c]]
      | w :: ws => (c :: w) :: ws := by
  simp [wordsR, hc]

theorem wordsR_cons_nonws {d : Char} (hd : isWs d = false) (ds : List Char) :
    ∃ w ws, wordsR (d :: ds) = (d :: w) :: ws := by
  cases hw : wordsR ds with
  | nil => exact ⟨[], [], by rw [wordsR_cons_step hd, hw]⟩
  | cons w' ws' => exact ⟨w', ws', by rw [wordsR_cons_step hd, hw]⟩

theorem normChars_cons_cons_nonws {c d : Char} (hc : isWs c = false)
    (hd : isWs d = false) (ds : List Char) :
    normChars (c :: d :: ds) = c :: normChars (d :: ds) := by
  obtain ⟨w, ws, hw⟩ := wordsR_cons_nonws hd ds
  have hww : wordsR (c :: d :: ds) = (c :: d :: w) :: ws := by
    rw [wordsR_cons_step hc, hw]
  have h1 : pySplit (c :: d :: ds) = (c :: d :: w) :: ws.filter (fun x => x ≠ []) := by
    rw [pySplit, hww, filterNe_cons_of_ne (List.cons_ne_nil _ _)]
  have h2 : pySplit (d :: ds) = (d :: w) :: ws.filter (fun x => x ≠ []) := by
    rw [pySplit, hw, filterNe_cons_of_ne (List.cons_ne_nil _ _)]
  rw [normChars, normChars, h1, h2, joinWords_cons, joinWords_cons]
  simp

theorem normChars_ne_nil_of_head {d : Char} {ds : List Char} {w : List Char}
    {rest : List (List Char)} (hsp : pySplit ds = w :: rest) : normChars ds ≠ [] := by
  have hwne : w ≠ [] := mem_pySplit_ne (l := ds) (by rw [hsp]; exact List.mem_cons_self _ _)
  rw [normChars, hsp, joinWords_cons]
  intro hcon
  rcases List.append_eq_nil.mp hcon with ⟨hw, _⟩
  exact hwne hw

theorem normChars_cons_nonws :
    ∀ (cs : List Char) (c : Char), isWs c = false → normChars (c :: cs) = c :: midJoin cs := by
  intro cs
  induction cs with
  | nil =>
    intro c h
    have hw1 : wordsR [c] = [[c]] := by rw [wordsR_cons_step h]; rfl
    have h1 : pySplit [c] = [[c]] := by
      rw [pySplit, hw1, filterNe_cons_of_ne (List.cons_ne_nil _ _)]
      rfl
    rw [normChars, h1]
    rfl
  | cons d ds ih =>
    intro c h
    by_cases hd : isWs d = true
    · have hw : wordsR (c :: d :: ds) = [c] :: wordsR ds := by
        rw [wordsR_cons_step h, wordsR_ws hd]
      have h1 : pySplit (c :: d :: ds) = [c] :: pySplit ds := by
        rw [pySplit, hw, filterNe_cons_of_ne (List.cons_ne_nil _ _)]
        rfl
      have hmid : midJoin (d :: ds) =
          match normChars ds with
          | [] => []
          | r => ' ' :: r := by
        simp [midJoin, hd]
      rw [normChars, h1, joinWords_cons, hmid]
      cases hsp : pySplit ds with
      | nil =>
        have hnc : normChars ds = [] := by rw [normChars, hsp]; rfl
        rw [hnc]
        rfl
      | cons w rest =>
        have hne : normChars ds ≠ [] := normChars_ne_nil_of_head (d := d) hsp
        have hjw : sepJoin (w :: rest) = ' ' :: normChars ds := by
          rw [normChars, hsp]
          rfl
        have hmatch : (match normChars ds with | [] => [] | r => ' ' :: r) =
            ' ' :: normChars ds := by
          cases hh : normChars ds with
          | nil => exact absurd hh hne
          | cons b bs => rfl
        rw [hjw, hmatch]
        rfl
    · have hd' : isWs d = false := by
        simpa using hd
      rw [normChars_cons_cons_nonws h hd' ds, ih d hd']
      simp [midJoin, hd']

theorem collapseWs_cons_nonws {c : Char} (h : isWs c = false) (cs : List Char) :
    collapseWs (c :: cs) = c :: collapseWs cs := by
  cases cs with
  | nil => simp [collapseWs, h]
  | cons d ds => simp [collapseWs, h]

theorem rtrimSp_cons_ne {c : Char} (h : ¬c = ' ') (x : List Char) :
    rtrimSp (c :: x) = c :: rtrimSp x := by
  cases hr : rtrimSp x <;> simp [rtrimSp, hr, h]

theorem rtrimSp_cons_sp_of_ne {x : List Char} (h : rtrimSp x ≠ []) :
    rtrimSp (' ' :: x) = ' ' :: rtrimSp x := by
  cases hr : rtrimSp x with
  | nil => exact absurd hr h
  | cons a as_ => simp [rtrimSp, hr]

theorem nonws_ne_sp {c : Char} (h : isWs c = false) : ¬c = ' ' := by
  intro hc
  subst hc
  simp [isWs] at h

theorem midJoin_cons_nonws {d : Char} (hd : isWs d = false) (ds : List Char) :
    midJoin (d :: ds) = d :: midJoin ds := by
  simp [midJoin, hd]

theorem rtrimSp_collapse_eq_midJoin :
    ∀ l : List Char, rtrimSp (collapseWs l) = midJoin l := by
  intro l
  induction l with
  | nil => simp [collapseWs, rtrimSp, midJoin]
  | cons c cs ih =>
    by_cases hc : isWs c = true
    · cases cs with
      | nil =>
        simp [collapseWs, hc, rtrimSp, midJoin, normChars, pySplit, wordsR, joinWords]
      | cons d ds =>
        by_cases hd : isWs d = true
        · have h1 : collapseWs (c :: d :: ds) = collapseWs (d :: ds) := by
            simp [collapseWs, hc, hd]
          rw [h1, ih]
          simp [midJoin, hc, hd, normChars_ws hd]
        · have hd' : isWs d = false := by simpa using hd
          have h1 : collapseWs (c :: d :: ds) = ' ' :: collapseWs (d :: ds) := by
            simp [collapseWs, hc, hd']
          have hne : rtrimSp (collapseWs (d :: ds)) ≠ [] := by
            rw [ih, midJoin_cons_nonws hd']
            simp
          rw [h1, rtrimSp_cons_sp_of_ne hne, ih, midJoin_cons_nonws hd']
          have hnc : normChars (d :: ds) = d :: midJoin ds :=
            normChars_cons_nonws ds d hd'
          have hm : midJoin (c :: d :: ds) =
              match normChars (d :: ds) with
              | [] => []
              | r => ' ' :: r := by
            simp [midJoin, hc]
          rw [hm, hnc]
    · have hc' : isWs c = false := by simpa using hc
      rw [collapseWs_cons_nonws hc', rtrimSp_cons_ne (nonws_ne_sp hc'), ih,
        midJoin_cons_nonws hc']

theorem ltrimSp_cons_sp (x : List Char) : ltrimSp (' ' :: x) = ltrimSp x := by
  simp [ltrimSp, List.dropWhile]

theorem ltrimSp_cons_ne {c : Char} (h : ¬c = ' ') (x : List Char) :
    ltrimSp (c :: x) = c :: x := by
  simp [ltrimSp, List.dropWhile, h]

theorem normChars_eq_specNorm : ∀ l : List Char, normChars l = specNormChars l := by
  intro l
  induction l with
  | nil => simp [normChars, pySplit, wordsR, joinWords, specNormChars, collapseWs, ltrimSp, rtrimSp]
  | cons c cs ih =>
    by_cases hc : isWs c = true
    · cases cs with
      | nil =>
        simp [normChars, pySplit, wordsR, hc, joinWords, specNormChars, collapseWs,
          ltrimSp, List.dropWhile, rtrimSp]
      | cons d ds =>
        by_cases hd : isWs d = true
        · have h1 : collapseWs (c :: d :: ds) = collapseWs (d :: ds) := by
            simp [collapseWs, hc, hd]
          rw [normChars_ws hc, ih]
          simp only [specNormChars, h1]
        · have hd' : isWs d = false := by simpa using hd
          have h1 : collapseWs (c :: d :: ds) = ' ' :: collapseWs (d :: ds) := by
            simp [collapseWs, hc, hd']
          rw [normChars_ws hc, ih]
          simp only [specNormChars, h1, ltrimSp_cons_sp]
    · have hc' : isWs c = false := by simpa using hc
      rw [normChars_cons_nonws cs c hc']
      simp only [specNormChars, collapseWs_cons_nonws hc',
        ltrimSp_cons_ne (nonws_ne_sp hc'), rtrimSp_cons_ne (nonws_ne_sp hc')]
      rw [rtrimSp_collapse_eq_midJoin]

/-- C1: `normalizeText` folds every run of whitespace (including newlines)
into a single space and trims both ends — for every string it agrees with the
collapse-runs-then-trim specification — the spec's concrete example holds,
and `None` input normalizes to the empty string, not a null marker. -/
theorem norm_whitespace_and_nil :
    norm none = "" ∧
    norm (some "a  b\nc") = norm (some "a b c") ∧
    norm (some "a b c") = "a b c" ∧
    ∀ s : String, normStr s = String.mk (specNormChars s.data) := by
  refine ⟨rfl, by decide, by decide, ?_⟩
  intro s
  simp [normStr, normChars_eq_specNorm]

/-! ### The string order and stable sorting -/

theorem strLtB_irrefl : ∀ l : List Char, strLtB l l = false
  | [] => rfl
  | a :: as_ => by simp [strLtB, strLtB_irrefl as_]

theorem strLtB_trans :
    ∀ (a b c : List Char), strLtB a b = true → strLtB b c = true → strLtB a c = true
  | [], [], _, h1, _ => by simp [strLtB] at h1
  | [], _ :: _, [], _, h2 => by simp [strLtB] at h2
  | [], _ :: _, _ :: _, _, _ => by simp [strLtB]
  | _ :: _, [], _, h1, _ => by simp [strLtB] at h1
  | _ :: _, _ :: _, [], _, h2 => by simp [strLtB] at h2
  | a :: as_, b :: bs, c :: cs, h1, h2 => by
    by_cases hab : a = b
    · subst hab
      simp only [strLtB, if_pos rfl] at h1
      by_cases hac : a = c
      · subst hac
        simp only [strLtB, if_pos rfl] at h2 ⊢
        exact strLtB_trans as_ bs cs h1 h2
      · simp only [strLtB, if_neg hac] at h2 ⊢
        exact h2
    · simp only [strLtB, if_neg hab, decide_eq_true_eq] at h1
      by_cases hbc : b = c
      · subst hbc
        simp [strLtB, hab, h1]
      · simp only [strLtB, if_neg hbc, decide_eq_true_eq] at h2
        have hac : a < c := lt_trans h1 h2
        simp [strLtB, ne_of_lt hac, hac]

theorem strLtB_trichotomy : ∀ (a b : List Char), a = b ∨ strLtB a b = true ∨ strLtB b a = true
  | [], [] => .inl rfl
  | [], _ :: _ => .inr (.inl (by simp [strLtB]))
  | _ :: _, [] => .inr (.inr (by simp [strLtB]))
  | a :: as_, b :: bs => by
    by_cases hab : a = b
    · subst hab
      rcases strLtB_trichotomy as_ bs with h | h | h
      · exact .inl (by rw [h])
      · exact .inr (.inl (by simp [strLtB, h]))
      · exact .inr (.inr (by simp [strLtB, h]))
    · rcases lt_trichotomy a b with h | h | h
      · exact .inr (.inl (by simp [strLtB, hab, h]))
      · exact absurd h hab
      · exact .inr (.inr (by simp [strLtB, Ne.symm hab, h]))

theorem strLtB_asymm {a b : List Char} (h : strLtB a b = true) : strLtB b a = false := by
  by_contra hba
  have hba' : strLtB b a = true := by
    cases hh : strLtB b a
    · exact absurd hh hba
    · rfl
  have := strLtB_trans a b a h hba'
  rw [strLtB_irrefl] at this
  exact Bool.false_ne_true this

theorem sLe_total (a b : String) : sLe a b = true ∨ sLe b a = true := by
  unfold sLe sLt
  cases hh : strLtB b.data a.data
  · exact .inl (by simp)
  · exact .inr (by simp [strLtB_asymm hh])

theorem sLe_trans {a b c : String} (h1 : sLe a b = true) (h2 : sLe b c = true) :
    sLe a c = true := by
  unfold sLe sLt at h1 h2 ⊢
  simp only [Bool.not_eq_true'] at h1 h2 ⊢
  by_contra hca
  have hca' : strLtB c.data a.data = true := by
    cases hh : strLtB c.data a.data
    · exact absurd hh hca
    · rfl
  rcases strLtB_trichotomy b.data c.data with h | h | h
  · rw [h] at h1
    rw [h1] at hca'
    exact Bool.false_ne_true hca'
  · have := strLtB_trans c.data a.data b.data hca' ?_
    · rw [strLtB_asymm h] at this
      exact Bool.false_ne_true this
    · cases hh : strLtB a.data b.data
      · rcases strLtB_trichotomy a.data b.data with h' | h' | h'
        · have hba := strLtB_trans b.data c.data a.data h hca'
          rw [h'] at hba
          rw [strLtB_irrefl] at hba
          exact absurd hba (by simp)
        · rw [h'] at hh
          exact absurd hh (by simp)
        · rw [h'] at h1
          exact absurd h1 (by simp)
      · rfl
  · rw [h] at h2
    exact Bool.false_ne_true h2.symm

theorem string_eq_of_data {a b : String} (h : a.data = b.data) : a = b := by
  cases a with
  | mk da =>
    cases b with
    | mk db => exact congrArg String.mk h

theorem sLe_antisymm {a b : String} (h1 : sLe a b = true) (h2 : sLe b a = true) : a = b := by
  unfold sLe sLt at h1 h2
  simp only [Bool.not_eq_true'] at h1 h2
  rcases strLtB_trichotomy a.data b.data with h | h | h
  · exact string_eq_of_data h
  · rw [h] at h2
    exact absurd h2 (by simp)
  · rw [h] at h1
    exact absurd h1 (by simp)

theorem sortByKey_perm (key : α → String) (l : List α) :
    List.Perm (sortByKey key l) l :=
  List.perm_insertionSort _ l

theorem sortByKey_sorted (key : α → String) (l : List α) :
    List.Sorted (keyRel key) (sortByKey key l) := by
  haveI : IsTotal α (keyRel key) := ⟨fun a b => sLe_total (key a) (key b)⟩
  haveI : IsTrans α (keyRel key) := ⟨fun _ _ _ h1 h2 => sLe_trans h1 h2⟩
  exact List.sorted_insertionSort _ l

theorem sortByKey_of_sorted {key : α → String} {l : List α}
    (h : List.Sorted (keyRel key) l) : sortByKey key l = l :=
  h.insertionSort_eq

theorem sortByKey_idem (key : α → String) (l : List α) :
    sortByKey key (sortByKey key l) = sortByKey key l :=
  sortByKey_of_sorted (sortByKey_sorted key l)

theorem sorted_perm_eq {r : α → α → Prop} :
    ∀ {l₁ l₂ : List α}, List.Perm l₁ l₂ → List.Sorted r l₁ → List.Sorted r l₂ →
      (∀ a ∈ l₁, ∀ b ∈ l₁, r a b → r b a → a = b) → l₁ = l₂ := by
  intro l₁
  induction l₁ with
  | nil =>
    intro l₂ hp _ _ _
    exact (hp.symm.eq_nil).symm
  | cons a t ih =>
    intro l₂ hp hs₁ hs₂ hanti
    cases l₂ with
    | nil => exact absurd hp.eq_nil (by simp)
    | cons b t₂ =>
      by_cases hab : a = b
      · subst hab
        have hp' := hp.cons_inv
        have ht := ih hp' hs₁.of_cons hs₂.of_cons
          (fun x hx y hy => hanti x (List.mem_cons_of_mem a hx) y (List.mem_cons_of_mem a hy))
        rw [ht]
      · have hamem : a ∈ b :: t₂ := hp.subset (List.mem_cons_self a t)
        have hbmem : b ∈ a :: t := hp.symm.subset (List.mem_cons_self b t₂)
        have hbt : b ∈ t := by
          rcases List.mem_cons.mp hbmem with h | h
          · exact absurd h.symm hab
          · exact h
        have hat2 : a ∈ t₂ := by
          rcases List.mem_cons.mp hamem with h | h
          · exact absurd h hab
          · exact h
        have hrab : r a b := List.rel_of_sorted_cons hs₁ b hbt
        have hrba : r b a := List.rel_of_sorted_cons hs₂ a hat2
        exact absurd
          (hanti a (List.mem_cons_self a t) b (List.mem_cons_of_mem a hbt) hrab hrba) hab

theorem sortByKey_eq_of_perm {key : α → String} {l₁ l₂ : List α}
    (hp : List.Perm l₁ l₂)
    (hinj : ∀ a ∈ l₁, ∀ b ∈ l₁, key a = key b → a = b) :
    sortByKey key l₁ = sortByKey key l₂ := by
  apply sorted_perm_eq (r := keyRel key)
  · exact (sortByKey_perm key l₁).trans (hp.trans (sortByKey_perm key l₂).symm)
  · exact sortByKey_sorted key l₁
  · exact sortByKey_sorted key l₂
  · intro a ha b hb h1 h2
    exact hinj a ((sortByKey_perm key l₁).subset ha) b ((sortByKey_perm key l₁).subset hb)
      (sLe_antisymm h1 h2)

theorem sortByIntKey_perm (key : α → Int) (l : List α) :
    List.Perm (sortByIntKey key l) l :=
  List.perm_insertionSort _ l

theorem sortByIntKey_sorted (key : α → Int) (l : List α) :
    List.Sorted (keyRelI key) (sortByIntKey key l) := by
  haveI : IsTotal α (keyRelI key) := ⟨fun a b => Int.le_total (key a) (key b)⟩
  haveI : IsTrans α (keyRelI key) := ⟨fun _ _ _ h1 h2 => le_trans h1 h2⟩
  exact List.sorted_insertionSort _ l

theorem sortByIntKey_eq_of_perm {key : α → Int} {l₁ l₂ : List α}
    (hp : List.Perm l₁ l₂)
    (hinj : ∀ a ∈ l₁, ∀ b ∈ l₁, key a = key b → a = b) :
    sortByIntKey key l₁ = sortByIntKey key l₂ := by
  apply sorted_perm_eq (r := keyRelI key)
  · exact (sortByIntKey_perm key l₁).trans (hp.trans (sortByIntKey_perm key l₂).symm)
  · exact sortByIntKey_sorted key l₁
  · exact sortByIntKey_sorted key l₂
  · intro a ha b hb h1 h2
    exact hinj a ((sortByIntKey_perm key l₁).subset ha) b
      ((sortByIntKey_perm key l₁).subset hb) (le_antisymm h1 h2)

/-! ### Idempotence of the text normalizer -/

theorem wordsR_mem_nonws :
    ∀ (l : List Char) (w : List Char), w ∈ wordsR l → ∀ c ∈ w, isWs c = false := by
  intro l
  induction l with
  | nil => intro w hw; simp [wordsR] at hw
  | cons a cs ih =>
    intro w hw c hc
    by_cases ha : isWs a = true
    · rw [wordsR_ws ha] at hw
      rcases List.mem_cons.mp hw with h | h
      · subst h; simp at hc
      · exact ih w h c hc
    · have ha' : isWs a = false := by simpa using ha
      cases hw2 : wordsR cs with
      | nil =>
        have hstep : wordsR (a :: cs) = [[a]] := by rw [wordsR_cons_step ha', hw2]
        rw [hstep] at hw
        simp at hw
        subst hw
        simp at hc
        subst hc
        exact ha'
      | cons w' ws' =>
        have hstep : wordsR (a :: cs) = (a :: w') :: ws' := by rw [wordsR_cons_step ha', hw2]
        rw [hstep] at hw
        rcases List.mem_cons.mp hw with h | h
        · subst h
          rcases List.mem_cons.mp hc with h | h
          · subst h; exact ha'
          · exact ih w' (by rw [hw2]; exact List.mem_cons_self _ _) c h
        · exact ih w (by rw [hw2]; exact List.mem_cons_of_mem _ h) c hc

theorem pySplit_mem_nonws {l w : List Char} (hw : w ∈ pySplit l) :
    ∀ c ∈ w, isWs c = false :=
  wordsR_mem_nonws l w (List.mem_of_mem_filter hw)

theorem wordsR_word_append :
    ∀ (w : List Char), w ≠ [] → (∀ c ∈ w, isWs c = false) →
      ∀ t, wordsR (w ++ ' ' :: t) = w :: wordsR t := by
  intro w
  induction w with
  | nil => intro h; exact absurd rfl h
  | cons a w' ih =>
    intro _ hnw t
    have ha : isWs a = false := hnw a (List.mem_cons_self _ _)
    cases w' with
    | nil =>
      have hsp : isWs ' ' = true := by decide
      rw [List.cons_append, List.nil_append, wordsR_cons_step ha, wordsR_ws hsp]
    | cons b w'' =>
      have hw' : wordsR ((b :: w'') ++ ' ' :: t) = (b :: w'') :: wordsR t :=
        ih (by simp) (fun c hc => hnw c (List.mem_cons_of_mem _ hc)) t
      rw [List.cons_append, wordsR_cons_step ha, hw']

theorem wordsR_word :
    ∀ (w : List Char), w ≠ [] → (∀ c ∈ w, isWs c = false) → wordsR w = [w] := by
  intro w
  induction w with
  | nil => intro h; exact absurd rfl h
  | cons a w' ih =>
    intro _ hnw
    have ha : isWs a = false := hnw a (List.mem_cons_self _ _)
    cases w' with
    | nil => rw [wordsR_cons_step ha]; rfl
    | cons b w'' =>
      have hw' : wordsR (b :: w'') = [b :: w''] :=
        ih (by simp) (fun c hc => hnw c (List.mem_cons_of_mem _ hc))
      rw [wordsR_cons_step ha, hw']

theorem pySplit_word {w : List Char} (h1 : w ≠ []) (h2 : ∀ c ∈ w, isWs c = false) :
    pySplit w = [w] := by
  rw [pySplit, wordsR_word w h1 h2, filterNe_cons_of_ne h1]
  rfl

theorem pySplit_word_append {w : List Char} (h1 : w ≠ [])
    (h2 : ∀ c ∈ w, isWs c = false) (t : List Char) :
    pySplit (w ++ ' ' :: t) = w :: pySplit t := by
  rw [pySplit, wordsR_word_append w h1 h2 t, filterNe_cons_of_ne h1]
  rfl

theorem pySplit_join :
    ∀ ws : List (List Char), (∀ w ∈ ws, w ≠ []) →
      (∀ w ∈ ws, ∀ c ∈ w, isWs c = false) → pySplit (joinWords ws) = ws := by
  intro ws
  induction ws with
  | nil => intro _ _; rfl
  | cons w ws' ih =>
    intro hne hnw
    have h1 : w ≠ [] := hne w (List.mem_cons_self _ _)
    have h2 : ∀ c ∈ w, isWs c = false := hnw w (List.mem_cons_self _ _)
    rw [joinWords_cons]
    cases ws' with
    | nil =>
      have : sepJoin ([] : List (List Char)) = [] := rfl
      rw [this, List.append_nil]
      exact pySplit_word h1 h2
    | cons v ws'' =>
      have hs : sepJoin (v :: ws'') = ' ' :: joinWords (v :: ws'') := rfl
      rw [hs, pySplit_word_append h1 h2, ih (fun x hx => hne x (List.mem_cons_of_mem _ hx))
        (fun x hx => hnw x (List.mem_cons_of_mem _ hx))]

theorem normChars_idem (l : List Char) : normChars (normChars l) = normChars l := by
  have h := pySplit_join (pySplit l) (fun w hw => mem_pySplit_ne hw)
    (fun w hw => pySplit_mem_nonws hw)
  calc normChars (normChars l) = joinWords (pySplit (joinWords (pySplit l))) := rfl
    _ = joinWords (pySplit l) := by rw [h]
    _ = normChars l := rfl

theorem normStr_idem (s : String) : normStr (normStr s) = normStr s :=
  congrArg String.mk (normChars_idem s.data)

/-! ### Idempotence of canonicalization (C2) -/

theorem toListJ_ofListJ : ∀ l : List J, toListJ (ofListJ l) = l
  | [] => rfl
  | x :: xs => by rw [ofListJ, toListJ, toListJ_ofListJ xs]

theorem toListKV_ofListKV : ∀ l : List (String × J), toListKV (ofListKV l) = l
  | [] => rfl
  | (k, v) :: r => by rw [ofListKV, toListKV, toListKV_ofListKV r]

theorem mapM_pyStrF : ∀ l : List J, mapMOpt pyStrF l = some (l.map pyStr)
  | [] => rfl
  | x :: xs => by
    rw [mapMOpt, mapM_pyStrF xs]
    rfl

theorem canonFL_toList (ig nk : List String) (strF : J → Option String) :
    ∀ xs : JList, toListJ (canonFL ig nk strF xs) = (toListJ xs).map (canonF ig nk strF)
  | .nil => rfl
  | .cons x xs => by
    rw [canonFL, toListJ, toListJ, canonFL_toList ig nk strF xs, List.map_cons]

theorem processKV_cons (ig nk : List String) (strF : J → Option String)
    (k : String) (v : J) (l : List (String × J)) :
    processKV ig nk strF ((k, v) :: l) =
      if k ∈ ig then processKV ig nk strF l
      else (k, maybeNorm nk k (canonF ig nk strF v)) :: processKV ig nk strF l := by
  rw [processKV, List.filter_cons]
  by_cases hk : k ∈ ig
  · simp [hk, processKV]
  · simp [hk, processKV]

theorem canonFKV_toList (ig nk : List String) (strF : J → Option String) :
    ∀ kvs : KVList, toListKV (canonFKV ig nk strF kvs) = processKV ig nk strF (toListKV kvs)
  | .nil => rfl
  | .cons k v r => by
    rw [toListKV, processKV_cons]
    by_cases hk : k ∈ ig
    · have h1 : canonFKV ig nk strF (KVList.cons k v r) = canonFKV ig nk strF r := by
        rw [canonFKV, if_pos hk]
      rw [h1, canonFKV_toList ig nk strF r, if_pos hk]
    · have h1 : canonFKV ig nk strF (KVList.cons k v r) =
          .cons k (maybeNorm nk k (canonF ig nk strF v)) (canonFKV ig nk strF r) := by
        rw [canonFKV, if_neg hk]
      rw [h1, toListKV, canonFKV_toList ig nk strF r, if_neg hk]

theorem canonicalize_jarr (ig nk : List String) (xs : JList) :
    canonicalize ig nk (.jarr xs) =
      .jarr (ofListJ (sortByKey pyStr ((toListJ xs).map (canonicalize ig nk)))) := by
  show canonF ig nk pyStrF (.jarr xs) = _
  rw [canonF, mapM_pyStrF, canonFL_toList]
  rfl

theorem canonicalize_jobj (ig nk : List String) (kvs : KVList) :
    canonicalize ig nk (.jobj kvs) =
      .jobj (ofListKV (sortByKey (fun kv => kv.1)
        (processKV ig nk pyStrF (toListKV kvs)))) := by
  show canonF ig nk pyStrF (.jobj kvs) = _
  rw [canonF, canonFKV_toList]

theorem canonicalize_atom (ig nk : List String) :
    canonicalize ig nk .null = .null ∧ (∀ b, canonicalize ig nk (.jb b) = .jb b) ∧
    (∀ n, canonicalize ig nk (.ji n) = .ji n) ∧ (∀ s, canonicalize ig nk (.js s) = .js s) :=
  ⟨rfl, fun _ => rfl, fun _ => rfl, fun _ => rfl⟩

theorem maybeNorm_stable (ig nk : List String) (k : String) (v0 : J)
    (hIH : canonicalize ig nk (canonicalize ig nk v0) = canonicalize ig nk v0) :
    maybeNorm nk k (canonicalize ig nk (maybeNorm nk k (canonicalize ig nk v0))) =
      maybeNorm nk k (canonicalize ig nk v0) := by
  by_cases hk : k ∈ nk
  · cases hv : canonicalize ig nk v0 with
    | js s =>
      have h1 : maybeNorm nk k (J.js s) = .js (normStr s) := by simp [maybeNorm, hk]
      have h2 : canonicalize ig nk (J.js (normStr s)) = .js (normStr s) := rfl
      have h3 : maybeNorm nk k (J.js (normStr s)) = .js (normStr (normStr s)) := by
        simp [maybeNorm, hk]
      rw [h1, h2, h3, normStr_idem]
    | null =>
      rw [hv] at hIH
      have hX : maybeNorm nk k J.null = J.null := by simp [maybeNorm, hk]
      rw [hX, hIH, hX]
    | jb b =>
      rw [hv] at hIH
      have hX : maybeNorm nk k (J.jb b) = J.jb b := by simp [maybeNorm, hk]
      rw [hX, hIH, hX]
    | ji n =>
      rw [hv] at hIH
      have hX : maybeNorm nk k (J.ji n) = J.ji n := by simp [maybeNorm, hk]
      rw [hX, hIH, hX]
    | jarr a =>
      rw [hv] at hIH
      have hX : maybeNorm nk k (J.jarr a) = J.jarr a := by simp [maybeNorm, hk]
      rw [hX, hIH, hX]
    | jobj o =>
      rw [hv] at hIH
      have hX : maybeNorm nk k (J.jobj o) = J.jobj o := by simp [maybeNorm, hk]
      rw [hX, hIH, hX]
  · have hX : ∀ v, maybeNorm nk k v = v := fun v => by simp [maybeNorm, hk]
    simp only [hX]
    exact hIH

theorem mem_processKV {ig nk : List String} {strF : J → Option String}
    {l : List (String × J)} {kv : String × J} (h : kv ∈ processKV ig nk strF l) :
    ∃ kv0 ∈ l, kv0.1 ∉ ig ∧ kv = (kv0.1, maybeNorm nk kv0.1 (canonF ig nk strF kv0.2)) := by
  rw [processKV] at h
  rcases List.mem_map.mp h with ⟨kv0, hkv0, hEq⟩
  refine ⟨kv0, List.mem_of_mem_filter hkv0, ?_, hEq.symm⟩
  have := List.of_mem_filter hkv0
  simpa using this

theorem processKV_eq_self {ig nk : List String} {strF : J → Option String}
    {l : List (String × J)}
    (h : ∀ kv ∈ l, kv.1 ∉ ig ∧ maybeNorm nk kv.1 (canonF ig nk strF kv.2) = kv.2) :
    processKV ig nk strF l = l := by
  induction l with
  | nil => rfl
  | cons kv r ih =>
    obtain ⟨k, v⟩ := kv
    have hkv := h (k, v) (List.mem_cons_self _ _)
    rw [processKV_cons, if_neg hkv.1, hkv.2,
      ih (fun x hx => h x (List.mem_cons_of_mem _ hx))]

theorem map_eq_self_of {f : α → α} {l : List α} (h : ∀ a ∈ l, f a = a) : l.map f = l := by
  induction l with
  | nil => rfl
  | cons a t ih =>
    rw [List.map_cons, h a (List.mem_cons_self _ _),
      ih (fun x hx => h x (List.mem_cons_of_mem _ hx))]

mutual
theorem canonIdem (ig nk : List String) :
    ∀ x : J, canonicalize ig nk (canonicalize ig nk x) = canonicalize ig nk x
  | .null => rfl
  | .jb _ => rfl
  | .ji _ => rfl
  | .js _ => rfl
  | .jarr xs => by
    have hmem := canonIdemL ig nk xs
    rw [canonicalize_jarr ig nk xs,
      canonicalize_jarr ig nk (ofListJ (sortByKey pyStr ((toListJ xs).map (canonicalize ig nk)))),
      toListJ_ofListJ]
    have hfix : ∀ y ∈ sortByKey pyStr ((toListJ xs).map (canonicalize ig nk)),
        canonicalize ig nk y = y := by
      intro y hy
      have hy' : y ∈ (toListJ xs).map (canonicalize ig nk) :=
        (sortByKey_perm _ _).subset hy
      rcases List.mem_map.mp hy' with ⟨z, hz, rfl⟩
      exact hmem z hz
    rw [map_eq_self_of hfix, sortByKey_idem]
  | .jobj kvs => by
    have hmem := canonIdemKV ig nk kvs
    rw [canonicalize_jobj ig nk kvs]
    set m := sortByKey (fun kv => kv.1) (processKV ig nk pyStrF (toListKV kvs)) with hmdef
    rw [canonicalize_jobj ig nk (ofListKV m), toListKV_ofListKV]
    have hprop : ∀ kv ∈ m, kv.1 ∉ ig ∧
        maybeNorm nk kv.1 (canonF ig nk pyStrF kv.2) = kv.2 := by
      intro kv hkv
      have hkv' : kv ∈ processKV ig nk pyStrF (toListKV kvs) :=
        (sortByKey_perm _ _).subset hkv
      rcases mem_processKV hkv' with ⟨kv0, hkv0, hig, rfl⟩
      exact ⟨hig, maybeNorm_stable ig nk kv0.1 kv0.2 (hmem kv0 hkv0)⟩
    rw [processKV_eq_self hprop, hmdef, sortByKey_idem]
theorem canonIdemL (ig nk : List String) :
    ∀ xs : JList, ∀ z ∈ toListJ xs,
      canonicalize ig nk (canonicalize ig nk z) = canonicalize ig nk z
  | .nil => by intro z hz; simp [toListJ] at hz
  | .cons x xs => by
    intro z hz
    rcases List.mem_cons.mp hz with rfl | h
    · exact canonIdem ig nk _
    · exact canonIdemL ig nk xs z h
theorem canonIdemKV (ig nk : List String) :
    ∀ kvs : KVList, ∀ kv ∈ toListKV kvs,
      canonicalize ig nk (canonicalize ig nk kv.2) = canonicalize ig nk kv.2
  | .nil => by intro kv hkv; simp [toListKV] at hkv
  | .cons k v r => by
    intro kv hkv
    rcases List.mem_cons.mp hkv with rfl | h
    · exact canonIdem ig nk _
    · exact canonIdemKV ig nk r kv h
end

/-- C2: for every tree `x` and every fixed configuration (`ignore_keys`,
`normalize_sql_keys`), `canonicalize` is idempotent:
`canonicalize(canonicalize(x, cfg), cfg) == canonicalize(x, cfg)`. -/
theorem canonicalize_idempotent (ig nk : List String) (x : J) :
    canonicalize ig nk (canonicalize ig nk x) = canonicalize ig nk x :=
  canonIdem ig nk x

/-! ### Totality of canonicalization and the caught sort exception (C10) -/

theorem ofListJ_toListJ : ∀ xs : JList, ofListJ (toListJ xs) = xs
  | .nil => rfl
  | .cons x xs => by rw [toListJ, ofListJ, ofListJ_toListJ xs]

theorem mapM_none_cons (a : J) (l : List J) :
    mapMOpt (fun _ => none) (a :: l) = none := rfl

mutual
theorem canonNoneEq (ig nk : List String) :
    ∀ x : J, canonF ig nk (fun _ => none) x = canonU ig nk x
  | .null => rfl
  | .jb _ => rfl
  | .ji _ => rfl
  | .js _ => rfl
  | .jarr xs => by
    cases xs with
    | nil => rfl
    | cons y ys =>
      have h0 : toListJ (canonFL ig nk (fun _ => none) (.cons y ys)) =
          canonF ig nk (fun _ => none) y ::
            toListJ (canonFL ig nk (fun _ => none) ys) := rfl
      have h1 : canonF ig nk (fun _ => none) (.jarr (JList.cons y ys)) =
          .jarr (ofListJ (toListJ (canonFL ig nk (fun _ => none) (.cons y ys)))) := by
        rw [canonF, h0, mapM_none_cons]
      rw [h1, ofListJ_toListJ, canonNoneEqL ig nk (.cons y ys)]
      rfl
  | .jobj kvs => by
    show J.jobj (ofListKV (sortByKey (fun kv => kv.1)
        (toListKV (canonFKV ig nk (fun _ => none) kvs)))) = _
    rw [canonNoneEqKV ig nk kvs]
    rfl
theorem canonNoneEqL (ig nk : List String) :
    ∀ xs : JList, canonFL ig nk (fun _ => none) xs = canonUL ig nk xs
  | .nil => rfl
  | .cons x xs => by
    rw [canonFL, canonUL, canonNoneEq ig nk x, canonNoneEqL ig nk xs]
theorem canonNoneEqKV (ig nk : List String) :
    ∀ kvs : KVList, canonFKV ig nk (fun _ => none) kvs = canonUKV ig nk kvs
  | .nil => rfl
  | .cons k v r => by
    by_cases hk : k ∈ ig
    · rw [canonFKV, canonUKV, if_pos hk, if_pos hk, canonNoneEqKV ig nk r]
    · rw [canonFKV, canonUKV, if_neg hk, if_neg hk, canonNoneEq ig nk v,
        canonNoneEqKV ig nk r]
end

/-- C10: `canonicalize` is total: for every input and configuration it
returns a tree (the embedding gives it type `J → J` for *every* sort-key
computation, including entirely failing ones), and when the sort-key
computation (`str()`) raises, the exception is caught and every array keeps
its elements in original order — the result is exactly the sort-free
canonicalization `canonU`.  The real key `pyStrF` never fails, which ties
`canonicalize` to the same parameterized function. -/
theorem canonicalize_total_catches_sort_failure (ig nk : List String) :
    (∀ x : J, canonF ig nk (fun _ => none) x = canonU ig nk x) ∧
    (∀ x : J, canonicalize ig nk x = canonF ig nk pyStrF x) :=
  ⟨canonNoneEq ig nk, fun _ => rfl⟩

/-! ### Order-independence of canonicalization (C3) -/

theorem canonicalize_def (ig nk : List String) :
    canonF ig nk pyStrF = canonicalize ig nk := rfl

mutual
theorem jEqB_sound : ∀ (a b : J), jEqB a b = true → a = b
  | .null, b, h => by cases b <;> simp [jEqB] at h ⊢
  | .jb x, b, h => by cases b <;> simp_all [jEqB]
  | .ji n, b, h => by cases b <;> simp_all [jEqB]
  | .js s, b, h => by cases b <;> simp_all [jEqB]
  | .jarr xs, b, h => by
    cases b <;> simp [jEqB] at h
    rw [jEqBL_sound xs _ h]
  | .jobj kvs, b, h => by
    cases b <;> simp [jEqB] at h
    rw [jEqBKV_sound kvs _ h]
theorem jEqBL_sound : ∀ (a b : JList), jEqBL a b = true → a = b
  | .nil, b, h => by cases b <;> simp [jEqBL] at h ⊢
  | .cons x xs, b, h => by
    cases b with
    | nil => simp [jEqBL] at h
    | cons y ys =>
      rw [jEqBL, Bool.and_eq_true] at h
      rw [jEqB_sound x y h.1, jEqBL_sound xs ys h.2]
theorem jEqBKV_sound : ∀ (a b : KVList), jEqBKV a b = true → a = b
  | .nil, b, h => by cases b <;> simp [jEqBKV] at h ⊢
  | .cons k v r, b, h => by
    cases b with
    | nil => simp [jEqBKV] at h
    | cons k' v' r' =>
      rw [jEqBKV, Bool.and_eq_true, Bool.and_eq_true, decide_eq_true_eq] at h
      rw [h.1.1, jEqB_sound v v' h.1.2, jEqBKV_sound r r' h.2]
end

theorem injPairsB_sound :
    ∀ {l : List J}, injPairsB l = true →
      ∀ a ∈ l, ∀ b ∈ l, pyStr a = pyStr b → a = b := by
  intro l
  induction l with
  | nil => intro _ a ha; simp at ha
  | cons x t ih =>
    intro h a ha b hb hab
    rw [injPairsB, Bool.and_eq_true, List.all_eq_true] at h
    have hpair : ∀ y ∈ t, pyStr x = pyStr y → x = y := by
      intro y hy hxy
      have := h.1 y hy
      rw [Bool.or_eq_true, Bool.not_eq_true', decide_eq_false_iff_not] at this
      rcases this with hne | heq
      · exact absurd hxy hne
      · exact jEqB_sound x y heq
    rcases List.mem_cons.mp ha with rfl | ha'
    · rcases List.mem_cons.mp hb with rfl | hb'
      · rfl
      · exact hpair b hb' hab
    · rcases List.mem_cons.mp hb with rfl | hb'
      · exact (hpair a ha' hab.symm).symm
      · exact ih h.2 a ha' b hb' hab

theorem keysInjL_mem {ig nk : List String} :
    ∀ (xs : JList), keysInjL ig nk xs = true →
      ∀ z ∈ toListJ xs, keysInj ig nk z = true
  | .nil, _, z, hz => by simp [toListJ] at hz
  | .cons x xs, h, z, hz => by
    rw [keysInjL, Bool.and_eq_true] at h
    rcases List.mem_cons.mp hz with rfl | hz'
    · exact h.1
    · exact keysInjL_mem xs h.2 z hz'

theorem keysInjKV_mem {ig nk : List String} :
    ∀ (kvs : KVList), keysInjKV ig nk kvs = true →
      ∀ kv ∈ toListKV kvs, keysInj ig nk kv.2 = true
  | .nil, _, kv, hkv => by simp [toListKV] at hkv
  | .cons k v r, h, kv, hkv => by
    rw [keysInjKV, Bool.and_eq_true] at h
    rcases List.mem_cons.mp hkv with rfl | hkv'
    · exact h.1
    · exact keysInjKV_mem r h.2 kv hkv'

mutual
theorem peqCanon (ig nk : List String) :
    ∀ {x y : J}, PEq x y → keysInj ig nk x = true → keysInj ig nk y = true →
      canonicalize ig nk x = canonicalize ig nk y
  | _, _, .null, _, _ => rfl
  | _, _, .jb _, _, _ => rfl
  | _, _, .ji _, _, _ => rfl
  | _, _, .js _, _, _ => rfl
  | _, _, @PEq.jarr xs ys zs hL hperm, hx, hy => by
    rw [keysInj, Bool.and_eq_true] at hx hy
    obtain ⟨hxL, _⟩ := hx
    obtain ⟨hyL, hyI⟩ := hy
    rw [canonFL_toList, canonicalize_def] at hyI
    have hinj := injPairsB_sound hyI
    have hmx : ∀ z ∈ toListJ xs, keysInj ig nk z = true := keysInjL_mem xs hxL
    have hmz : ∀ z ∈ zs, keysInj ig nk z = true :=
      fun z hz => keysInjL_mem ys hyL z (hperm.subset hz)
    have hmap := peqCanonL ig nk hL hmx hmz
    rw [canonicalize_jarr, canonicalize_jarr, hmap]
    have hpermM : List.Perm (zs.map (canonicalize ig nk))
        ((toListJ ys).map (canonicalize ig nk)) := hperm.map _
    have hsort := @sortByKey_eq_of_perm _ pyStr _ _ hpermM
      (fun a ha b hb hab => hinj a (hpermM.subset ha) b (hpermM.subset hb) hab)
    rw [hsort]
  | _, _, @PEq.jobj kvs kvs' hKV, hx, hy => by
    rw [keysInj] at hx hy
    have h := peqCanonKV ig nk hKV (keysInjKV_mem kvs hx) (keysInjKV_mem kvs' hy)
    rw [canonicalize_jobj, canonicalize_jobj, ← canonFKV_toList, ← canonFKV_toList, h]
theorem peqCanonL (ig nk : List String) :
    ∀ {xs : JList} {zs : List J}, PEqL xs zs →
      (∀ z ∈ toListJ xs, keysInj ig nk z = true) →
      (∀ z ∈ zs, keysInj ig nk z = true) →
      (toListJ xs).map (canonicalize ig nk) = zs.map (canonicalize ig nk)
  | _, _, .nil, _, _ => rfl
  | _, _, @PEqL.cons x y xs ys hxy hrest, h1, h2 => by
    have hhd := peqCanon ig nk hxy (h1 x (List.mem_cons_self _ _))
      (h2 y (List.mem_cons_self _ _))
    have htl := peqCanonL ig nk hrest
      (fun z hz => h1 z (List.mem_cons_of_mem _ hz))
      (fun z hz => h2 z (List.mem_cons_of_mem _ hz))
    show canonicalize ig nk x :: (toListJ xs).map (canonicalize ig nk) =
      canonicalize ig nk y :: ys.map (canonicalize ig nk)
    rw [hhd, htl]
theorem peqCanonKV (ig nk : List String) :
    ∀ {kvs kvs' : KVList}, PEqKV kvs kvs' →
      (∀ kv ∈ toListKV kvs, keysInj ig nk kv.2 = true) →
      (∀ kv ∈ toListKV kvs', keysInj ig nk kv.2 = true) →
      canonFKV ig nk pyStrF kvs = canonFKV ig nk pyStrF kvs'
  | _, _, .nil, _, _ => rfl
  | _, _, @PEqKV.cons k v v' r r' hv hr, h1, h2 => by
    have hhd := peqCanon ig nk hv (h1 (k, v) (List.mem_cons_self _ _))
      (h2 (k, v') (List.mem_cons_self _ _))
    have htl := peqCanonKV ig nk hr
      (fun kv hkv => h1 kv (List.mem_cons_of_mem _ hkv))
      (fun kv hkv => h2 kv (List.mem_cons_of_mem _ hkv))
    by_cases hk : k ∈ ig
    · rw [canonFKV, canonFKV, if_pos hk, if_pos hk, htl]
    · rw [canonFKV, canonFKV, if_neg hk, if_neg hk, htl, canonicalize_def, hhd]
end

/-- C3 (counterexample): `canonicalize` is not invariant under permuting a
list-typed field.  The sort key is the Python `str()` of each element and the
sort is stable, so distinct elements with equal keys keep their arrival
order: `str(1) == str("1") == "1"`, hence the arrays `[1, "1"]` and
`["1", 1]` — permutations of one another — canonicalize to different trees. -/
theorem canonicalize_perm_counterexample :
    PEq (J.jarr (.cons (.ji 1) (.cons (.js "1") .nil)))
      (J.jarr (.cons (.js "1") (.cons (.ji 1) .nil))) ∧
    canonicalize [] [] (J.jarr (.cons (.ji 1) (.cons (.js "1") .nil))) ≠
      canonicalize [] [] (J.jarr (.cons (.js "1") (.cons (.ji 1) .nil))) := by
  constructor
  · exact @PEq.jarr _ _ [J.ji 1, J.js "1"]
      (PEqL.cons (PEq.ji 1) (PEqL.cons (PEq.js "1") PEqL.nil))
      (List.Perm.swap (J.js "1") (J.ji 1) [])
  · intro h
    have h1 : canonicalize [] [] (J.jarr (.cons (.ji 1) (.cons (.js "1") .nil))) =
        J.jarr (.cons (.ji 1) (.cons (.js "1") .nil)) := by rfl
    have h2 : canonicalize [] [] (J.jarr (.cons (.js "1") (.cons (.ji 1) .nil))) =
        J.jarr (.cons (.js "1") (.cons (.ji 1) .nil)) := by rfl
    rw [h1, h2] at h
    simp at h

/-- C3 (amended): for trees equal up to permutations of list-typed fields,
`canonicalize` (with the same configuration) produces identical output
provided that, on both trees, the canonicalized elements of every array have
injective Python `str()` sort keys (distinct elements, distinct keys) —
without that proviso the stable sort preserves arrival order of key ties and
the claim fails. -/
theorem canonicalize_perm_invariant (ig nk : List String) {x y : J}
    (hp : PEq x y) (hx : keysInj ig nk x = true) (hy : keysInj ig nk y = true) :
    canonicalize ig nk x = canonicalize ig nk y :=
  peqCanon ig nk hp hx hy

theorem canonicalize_perm_invariant_witness :
    canonicalize [] [] (J.jarr (.cons (.ji 2) (.cons (.ji 1) .nil))) =
      canonicalize [] [] (J.jarr (.cons (.ji 1) (.cons (.ji 2) .nil))) :=
  canonicalize_perm_invariant [] []
    (@PEq.jarr _ _ [J.ji 2, J.ji 1]
      (PEqL.cons (PEq.ji 2) (PEqL.cons (PEq.ji 1) PEqL.nil))
      (List.Perm.swap (J.ji 1) (J.ji 2) []))
    (by decide) (by decide)

/-! ### Foreign-key grouping in the snapshot builder (C4) -/

theorem mem_dedupFirst [DecidableEq α] : ∀ {l : List α} {a : α}, a ∈ dedupFirst l ↔ a ∈ l := by
  intro l
  induction l with
  | nil => intro a; rfl
  | cons x t ih =>
    intro a
    rw [dedupFirst]
    constructor
    · intro h
      rcases List.mem_cons.mp h with rfl | h'
      · exact List.mem_cons_self _ _
      · exact List.mem_cons_of_mem _ (ih.mp (List.mem_of_mem_filter h'))
    · intro h
      rcases List.mem_cons.mp h with rfl | h'
      · exact List.mem_cons_self _ _
      · by_cases hax : a = x
        · subst hax; exact List.mem_cons_self _ _
        · exact List.mem_cons_of_mem _
            (List.mem_filter.mpr ⟨ih.mpr h', by simpa using hax⟩)

theorem dedupFirst_map_const {f : α → String} {n : String} :
    ∀ {l : List α}, l ≠ [] → (∀ x ∈ l, f x = n) → dedupFirst (l.map f) = [n] := by
  intro l
  induction l with
  | nil => intro h; exact absurd rfl h
  | cons x t _ =>
    intro _ hall
    rw [List.map_cons, dedupFirst, hall x (List.mem_cons_self _ _)]
    have hnil : (dedupFirst (t.map f)).filter (fun y => y ≠ n) = [] := by
      rw [List.filter_eq_nil]
      intro a ha
      have ha' : a ∈ t.map f := mem_dedupFirst.mp ha
      rcases List.mem_map.mp ha' with ⟨z, hz, rfl⟩
      simp [hall z (List.mem_cons_of_mem _ hz)]
    rw [hnil]

theorem buildFks_single {n : String} {rows : List FKRow} {r0 : FKRow} {rest : List FKRow}
    (hne : rows ≠ []) (hn : ∀ r ∈ rows, r.constraint_name = n)
    (hs : sortByIntKey (fun r => (r.ordinal_position).getD 0) rows = r0 :: rest) :
    buildFks rows =
      [{ name := n, ref_schema := r0.foreign_table_schema,
         ref_table := r0.foreign_table_name,
         columns := (r0 :: rest).map (fun r => (r.column_name, r.foreign_column_name)) }] := by
  rw [buildFks, dedupFirst_map_const hne hn, List.map_cons, List.map_nil]
  have hfil : rows.filter (fun r => decide (r.constraint_name = n)) = rows :=
    List.filter_eq_self.mpr (fun r hr => decide_eq_true (hn r hr))
  rw [hfil]
  dsimp only
  rw [hs]

/-- C4: for every group of foreign-key rows sharing one constraint name (with
one referenced target, as the catalog guarantees, and distinct ordinal
positions), the snapshot builder produces exactly one FK record, independent
of the order in which the rows arrive; its column-mapping list is the rows'
`(local, remote)` pairs in ordinal-position order and its referenced
schema/table come from the first row in that order. -/
theorem fk_builder_grouping (n rs rt : String) (rows rows' : List FKRow)
    (hne : rows ≠ [])
    (hgrp : ∀ r ∈ rows, r.constraint_name = n ∧
      r.foreign_table_schema = rs ∧ r.foreign_table_name = rt)
    (hpos : ∀ r ∈ rows, ∀ r' ∈ rows,
      (r.ordinal_position).getD 0 = (r'.ordinal_position).getD 0 → r = r')
    (hperm : List.Perm rows' rows) :
    buildFks rows' = buildFks rows ∧
    ∃ sortedRows, List.Perm sortedRows rows ∧
      List.Sorted (fun a b : FKRow =>
        (a.ordinal_position).getD 0 ≤ (b.ordinal_position).getD 0) sortedRows ∧
      buildFks rows =
        [{ name := n, ref_schema := rs, ref_table := rt,
           columns := sortedRows.map (fun r => (r.column_name, r.foreign_column_name)) }] := by
  have hne' : rows' ≠ [] := by
    intro h
    subst h
    exact hne hperm.symm.eq_nil
  have hsorteq : sortByIntKey (fun r => (r.ordinal_position).getD 0) rows' =
      sortByIntKey (fun r => (r.ordinal_position).getD 0) rows :=
    sortByIntKey_eq_of_perm hperm
      (fun a ha b hb hab => hpos a (hperm.subset ha) b (hperm.subset hb) hab)
  cases hs : sortByIntKey (fun r => (r.ordinal_position).getD 0) rows with
  | nil =>
    have := (sortByIntKey_perm (fun r => (r.ordinal_position).getD 0) rows)
    rw [hs] at this
    exact absurd this.symm.eq_nil hne
  | cons r0 rest =>
    have hr0 : r0 ∈ rows := by
      have := (sortByIntKey_perm (fun r => (r.ordinal_position).getD 0) rows).subset
      rw [hs] at this
      exact this (List.mem_cons_self _ _)
    have hb := buildFks_single hne (fun r hr => (hgrp r hr).1) hs
    have hb' := buildFks_single hne' (fun r hr => (hgrp r (hperm.subset hr)).1)
      (hsorteq.trans hs)
    constructor
    · rw [hb, hb']
    · refine ⟨r0 :: rest, ?_, ?_, ?_⟩
      · have := sortByIntKey_perm (fun r => (r.ordinal_position).getD 0) rows
        rw [hs] at this
        exact this
      · have := sortByIntKey_sorted (fun r => (r.ordinal_position).getD 0) rows
        rw [hs] at this
        exact this
      · rw [hb, (hgrp r0 hr0).2.1, (hgrp r0 hr0).2.2]

theorem fk_builder_grouping_witness :
    buildFks [⟨"fk1", "col_b", "ref_y", "s2", "t2", some 2⟩,
              ⟨"fk1", "col_a", "ref_x", "s2", "t2", some 1⟩] =
      buildFks [⟨"fk1", "col_a", "ref_x", "s2", "t2", some 1⟩,
                ⟨"fk1", "col_b", "ref_y", "s2", "t2", some 2⟩] ∧
    buildFks [⟨"fk1", "col_b", "ref_y", "s2", "t2", some 2⟩,
              ⟨"fk1", "col_a", "ref_x", "s2", "t2", some 1⟩] =
      [{ name := "fk1", ref_schema := "s2", ref_table := "t2",
         columns := [("col_a", "ref_x"), ("col_b", "ref_y")] }] := by
  have h := fk_builder_grouping "fk1" "s2" "t2"
    [⟨"fk1", "col_a", "ref_x", "s2", "t2", some 1⟩,
     ⟨"fk1", "col_b", "ref_y", "s2", "t2", some 2⟩]
    [⟨"fk1", "col_b", "ref_y", "s2", "t2", some 2⟩,
     ⟨"fk1", "col_a", "ref_x", "s2", "t2", some 1⟩]
    (by decide) (by decide) (by decide)
    (List.Perm.swap _ _ [])
  refine ⟨h.1, ?_⟩
  rw [h.1]
  rcases h.2 with ⟨sr, _, _, hEq⟩
  rw [hEq]
  have : sr.map (fun r => (r.column_name, r.foreign_column_name)) =
      [("col_a", "ref_x"), ("col_b", "ref_y")] := by
    have hcomp : buildFks [⟨"fk1", "col_a", "ref_x", "s2", "t2", some 1⟩,
        ⟨"fk1", "col_b", "ref_y", "s2", "t2", some 2⟩] =
      [{ name := "fk1", ref_schema := "s2", ref_table := "t2",
         columns := [("col_a", "ref_x"), ("col_b", "ref_y")] }] := by decide
    rw [hcomp] at hEq
    have := congrArg (fun l => (l.headD
      { name := "", ref_schema := "", ref_table := "", columns := [] }).columns) hEq
    simpa using this.symm
  rw [this]

/-! ### Glob semantics of the ignore-table predicate (C9) -/

theorem anyTail_iff (f : List Char → Bool) :
    ∀ cs, anyTail f cs = true ↔ ∃ a b, cs = a ++ b ∧ f b = true := by
  intro cs
  induction cs with
  | nil =>
    constructor
    · intro h
      exact ⟨[], [], rfl, h⟩
    · rintro ⟨a, b, hab, hb⟩
      rcases List.append_eq_nil.mp hab.symm with ⟨rfl, rfl⟩
      exact hb
  | cons c cs ih =>
    rw [anyTail, Bool.or_eq_true]
    constructor
    · rintro (h | h)
      · exact ⟨[], c :: cs, rfl, h⟩
      · rcases ih.mp h with ⟨a, b, hab, hb⟩
        exact ⟨c :: a, b, by rw [hab, List.cons_append], hb⟩
    · rintro ⟨a, b, hab, hb⟩
      cases a with
      | nil =>
        rw [List.nil_append] at hab
        exact .inl (hab ▸ hb)
      | cons a0 a' =>
        rw [List.cons_append, List.cons.injEq] at hab
        exact .inr (ih.mpr ⟨a', b, hab.2, hb⟩)

theorem tokMatch_star_iff (ps : List GTok) (cs : List Char) :
    tokMatch (.star :: ps) cs = true ↔
      ∃ a b, cs = a ++ b ∧ tokMatch ps b = true :=
  anyTail_iff (tokMatch ps) cs

theorem tokMatch_lits_iff :
    ∀ (ps cs : List Char), tokMatch (ps.map GTok.lit) cs = true ↔ ps = cs := by
  intro ps
  induction ps with
  | nil =>
    intro cs
    cases cs <;> simp [tokMatch, List.isEmpty]
  | cons p ps ih =>
    intro cs
    cases cs with
    | nil => simp [tokMatch]
    | cons c cs' =>
      rw [List.map_cons]
      rw [show tokMatch (GTok.lit p :: ps.map GTok.lit) (c :: cs') =
        ((p = c) && tokMatch (ps.map GTok.lit) cs') from rfl]
      rw [Bool.and_eq_true, decide_eq_true_eq, ih cs']
      constructor
      · rintro ⟨rfl, rfl⟩; rfl
      · intro h
        rw [List.cons.injEq] at h
        exact ⟨h.1, h.2⟩

theorem tokenizeF_lits :
    ∀ (ps : List Char) (fuel : Nat), ps.length ≤ fuel →
      (∀ c ∈ ps, c ≠ '*' ∧ c ≠ '?' ∧ c ≠ '[') →
      tokenizeF fuel ps = ps.map GTok.lit := by
  intro ps
  induction ps with
  | nil =>
    intro fuel _ _
    cases fuel <;> rfl
  | cons c ps ih =>
    intro fuel hlen hns
    cases fuel with
    | zero => simp at hlen
    | succ f =>
      have hc := hns c (List.mem_cons_self _ _)
      have hrest : tokenizeF f ps = ps.map GTok.lit :=
        ih f (by simpa using Nat.succ_le_succ_iff.mp hlen)
          (fun x hx => hns x (List.mem_cons_of_mem _ hx))
      rw [List.map_cons, ← hrest]
      rw [tokenizeF]
      · simp [hc.1, hc.2.1, hc.2.2]
      · exact fun h => hc.2.1 h
      · exact fun h => hc.2.2 h

theorem shouldIgnoreTable_iff (globs : List String) (s t : String) :
    shouldIgnoreTable globs s t = true ↔
      ∃ p ∈ globs, globMatch p (s ++ "." ++ t) = true := by
  rw [shouldIgnoreTable, List.any_eq_true]

/-- C9: `shouldIgnoreTable(schema, table)` is true iff the dotted string
`"schema.table"` matches at least one configured glob; matching tokenizes the
pattern and is anchored to the full string, `*` matches exactly an arbitrary
run of characters (any split of the input), a pattern of plain characters
matches only the identical string (so matching is character-exact and in
particular case-sensitive, witnessed concretely by `"A.*"` not matching
`"a.x"`). -/
theorem ignore_glob_semantics :
    (∀ (globs : List String) (s t : String),
      shouldIgnoreTable globs s t = true ↔
        ∃ p ∈ globs, globMatch p (s ++ "." ++ t) = true) ∧
    (∀ (ps : List GTok) (cs : List Char),
      tokMatch (.star :: ps) cs = true ↔
        ∃ a b, cs = a ++ b ∧ tokMatch ps b = true) ∧
    (∀ (p s : String), (∀ c ∈ p.data, c ≠ '*' ∧ c ≠ '?' ∧ c ≠ '[') →
      (globMatch p s = true ↔ p = s)) ∧
    (globMatch "A.*" "a.x" = false ∧ globMatch "a.*" "a.x" = true) := by
  refine ⟨shouldIgnoreTable_iff, tokMatch_star_iff, ?_, by decide, by decide⟩
  intro p s hns
  rw [globMatch, tokenize, tokenizeF_lits p.data p.data.length le_rfl hns,
    tokMatch_lits_iff]
  constructor
  · intro h
    exact string_eq_of_data h
  · intro h
    rw [h]

/-! ### The return code is set exactly at the print sites (C7, C8) -/

theorem rcOk_site (c : Bool) (f : φ) : rcOk (fSite c f) := by
  cases c <;> simp [rcOk, fSite]

theorem rcOk_zero : rcOk ((0, []) : Nat × List φ) := by
  simp [rcOk]

theorem rcOk_comb {a b : Nat × List φ} (ha : rcOk a) (hb : rcOk b) :
    rcOk (fComb a b) := by
  rcases a with ⟨ra, fa⟩
  rcases b with ⟨rb, fb⟩
  rw [rcOk, fComb]
  rw [rcOk] at ha hb
  constructor
  · intro h
    have h' := Nat.max_eq_zero_iff.mp h
    simp only [List.append_eq_nil]
    exact ⟨ha.mp h'.1, hb.mp h'.2⟩
  · intro h
    rcases List.append_eq_nil.mp h with ⟨h1, h2⟩
    exact Nat.max_eq_zero_iff.mpr ⟨ha.mpr h1, hb.mpr h2⟩

theorem rcOk_fAll {l : List (Nat × List φ)} (h : ∀ p ∈ l, rcOk p) : rcOk (fAll l) := by
  induction l with
  | nil => exact rcOk_zero
  | cons p t ih =>
    exact rcOk_comb (h p (List.mem_cons_self _ _))
      (ih (fun q hq => h q (List.mem_cons_of_mem _ hq)))

theorem rcOk_checkOneTableY (db : DBY) (s n : String) (t : Table) :
    rcOk (checkOneTableY db s n t) := by
  rw [checkOneTableY]
  by_cases hrows : db.cols s n = []
  · rw [if_pos hrows]
    exact rcOk_site _ _
  · rw [if_neg hrows]
    dsimp only
    apply rcOk_comb
    · apply rcOk_fAll
      intro p hp
      rcases List.mem_map.mp hp with ⟨cm, _, rfl⟩
      split
      · exact rcOk_site _ _
      · apply rcOk_fAll
        intro q hq
        rcases List.mem_map.mp hq with ⟨kv, _, rfl⟩
        split
        · exact rcOk_zero
        · exact rcOk_site _ _
    apply rcOk_comb
    · exact rcOk_site _ _
    apply rcOk_comb
    · split
      · exact rcOk_site _ _
      · exact rcOk_site _ _
      · exact rcOk_site _ _
      · exact rcOk_zero
    exact rcOk_comb (rcOk_site _ _) (rcOk_site _ _)

theorem rcOk_checkTablesColumns (db : DBY) (snap : SnapY) :
    rcOk (checkTablesColumns db snap) := by
  rw [checkTablesColumns]
  apply rcOk_fAll
  intro p hp
  rcases List.mem_map.mp hp with ⟨kt, _, rfl⟩
  exact rcOk_checkOneTableY db kt.1.1 kt.1.2 kt.2

theorem rcOk_checkViews (db : DBY) (snap : SnapY) : rcOk (checkViews db snap) := by
  rw [checkViews]
  split
  · exact rcOk_zero
  · apply rcOk_fAll
    intro p hp
    rcases List.mem_map.mp hp with ⟨kv, _, rfl⟩
    split
    · exact rcOk_site _ _
    · exact rcOk_site _ _

theorem rcOk_checkFunctions (db : DBY) (snap : SnapY) (hashFn : String → String) :
    rcOk (checkFunctions db snap hashFn) := by
  rw [checkFunctions]
  split
  · exact rcOk_zero
  · apply rcOk_fAll
    intro p hp
    rcases List.mem_map.mp hp with ⟨kv, _, rfl⟩
    split
    · exact rcOk_site _ _
    · exact rcOk_site _ _

theorem rcOk_checkRoles (db : DBY) (snap : SnapY) : rcOk (checkRoles db snap) := by
  rw [checkRoles]
  dsimp only
  apply rcOk_comb
  · exact rcOk_site _ _
  · split
    · exact rcOk_zero
    · exact rcOk_comb (rcOk_site _ _) (rcOk_site _ _)

theorem rcOk_checkSequences (db : DBY) (snap : SnapY) : rcOk (checkSequences db snap) := by
  rw [checkSequences]
  dsimp only
  apply rcOk_comb
  · split
    · exact rcOk_zero
    · exact rcOk_site _ _
  · split
    · exact rcOk_zero
    · split
      · exact rcOk_zero
      · exact rcOk_comb (rcOk_site _ _) (rcOk_site _ _)

theorem rcOk_runChecksY (db : DBY) (snap : SnapY) (hashFn : String → String) :
    rcOk (runChecksY db snap hashFn) := by
  rw [runChecksY]
  exact rcOk_comb (rcOk_checkTablesColumns db snap)
    (rcOk_comb (rcOk_checkViews db snap)
      (rcOk_comb (rcOk_checkFunctions db snap hashFn)
        (rcOk_comb (rcOk_checkRoles db snap) (rcOk_checkSequences db snap))))

/-- C7: the run exits with status 0 (pass) if and only if the comparison
produced no findings: every `[FAIL]` print site sets the return code to 1,
the return code is only set at print sites, and `main` exits nonzero exactly
when the combined return code is nonzero. -/
theorem exit_zero_iff_no_findings (db : DBY) (snap : SnapY) (hashFn : String → String) :
    exitCodeY db snap hashFn = 0 ↔ (runChecksY db snap hashFn).2 = [] := by
  have h := rcOk_runChecksY db snap hashFn
  rw [rcOk] at h
  rw [exitCodeY]
  by_cases hz : (runChecksY db snap hashFn).1 = 0
  · rw [if_pos hz]
    constructor
    · intro _
      exact h.mp hz
    · intro _
      rfl
  · rw [if_neg hz]
    constructor
    · intro hcon
      exact absurd hcon (by simp)
    · intro hfind
      exact absurd (h.mpr hfind) hz

/-- C8: for every expected table whose live column query returns zero rows,
the checker emits exactly one missing-table finding for it and performs none
of that table's sub-entity checks (no column, primary key, unique, or
foreign-key findings); `check_tables_columns` is the combination of this
per-table body over the snapshot's table dictionary. -/
theorem missing_table_short_circuit (db : DBY) (s n : String) (t : Table)
    (h : db.cols s n = []) :
    checkOneTableY db s n t = (1, [YFind.missingTable s n]) ∧
    ∀ snap : SnapY, checkTablesColumns db snap =
      fAll ((dictUp (snap.tables.map (fun tb => ((tb.schema, tb.name), tb)))).map
        (fun kt => checkOneTableY db kt.1.1 kt.1.2 kt.2)) := by
  constructor
  · rw [checkOneTableY, if_pos h]
    rfl
  · intro snap
    rfl

theorem missing_table_short_circuit_witness :
    checkOneTableY
      ⟨fun _ _ => [], fun _ _ => [], fun _ _ => [], fun _ _ => [],
       fun _ => [], fun _ => [], [], [], fun _ => [], []⟩
      "public" "users" ⟨"public", "users", [], none, [], []⟩ =
      (1, [YFind.missingTable "public" "users"]) :=
  (missing_table_short_circuit _ "public" "users" _ rfl).1

/-! ### Which categories report the unexpected (have-minus-want) side (C6) -/

theorem mem_sortByLtB {lt : α → α → Bool} {l : List α} {x : α} :
    x ∈ sortByLtB lt l ↔ x ∈ l := by
  rw [sortByLtB, List.mem_insertionSort]

theorem mem_setDiffSorted [DecidableEq α] {lt : α → α → Bool} {a b : List α} {x : α} :
    x ∈ setDiffSorted lt a b ↔ x ∈ a ∧ x ∉ b := by
  rw [setDiffSorted, mem_sortByLtB, List.mem_filter, mem_dedupFirst]
  simp

theorem mem_fSite {cond : Bool} {f : φ} (h : cond = true) : f ∈ (fSite cond f).2 := by
  rw [fSite, if_pos h]
  exact List.mem_cons_self _ _

theorem mem_fComb_left {a b : Nat × List φ} {x : φ} (h : x ∈ a.2) : x ∈ (fComb a b).2 :=
  List.mem_append_left _ h

theorem mem_fComb_right {a b : Nat × List φ} {x : φ} (h : x ∈ b.2) : x ∈ (fComb a b).2 :=
  List.mem_append_right _ h

theorem lookup_mem_keys [DecidableEq κ] :
    ∀ {l : List (κ × β)} {k : κ}, k ∈ l.map Prod.fst → ∃ v, l.lookup k = some v := by
  intro l
  induction l with
  | nil => intro k h; simp at h
  | cons kv t ih =>
    intro k h
    by_cases hk : k = kv.1
    · exact ⟨kv.2, by simp [List.lookup, hk]⟩
    · have h' : k ∈ t.map Prod.fst := by
        rcases List.mem_cons.mp h with h0 | h0
        · exact absurd h0 hk
        · exact h0
      rcases ih h' with ⟨v, hv⟩
      refine ⟨v, ?_⟩
      have hbeq : (k == kv.1) = false := by
        simpa using hk
      simp [List.lookup, hbeq, hv]

theorem filterMap_lookup_keys [DecidableEq κ] {lr : List (κ × β)} :
    ∀ (ks : List κ), (∀ k ∈ ks, ∃ v, lr.lookup k = some v) →
      (ks.filterMap (fun k => (lr.lookup k).map (fun v => (k, v)))).map Prod.fst = ks := by
  intro ks
  induction ks with
  | nil => intro _; rfl
  | cons k t ih =>
    intro h
    rcases h k (List.mem_cons_self _ _) with ⟨v, hv⟩
    rw [List.filterMap_cons, hv]
    simp only [Option.map_some']
    rw [List.map_cons, ih (fun x hx => h x (List.mem_cons_of_mem _ hx))]

theorem dictUp_keys [DecidableEq κ] (l : List (κ × β)) :
    (dictUp l).map Prod.fst = dedupFirst (l.map Prod.fst) := by
  rw [dictUp]
  apply filterMap_lookup_keys
  intro k hk
  apply lookup_mem_keys
  have hk' : k ∈ l.map Prod.fst := mem_dedupFirst.mp hk
  rcases List.mem_map.mp hk' with ⟨p, hp, rfl⟩
  exact List.mem_map.mpr ⟨p, List.mem_reverse.mpr hp, rfl⟩

/-- C6 (counterexample): an entity present on the live side but absent from
the expected side does NOT always produce an Unexpected finding: the roles
category only reports `want − have`.  With no expected roles and one live
role `extra`, `check_roles` reports nothing at all. -/
theorem unexpected_role_unreported :
    checkRoles
      ⟨fun _ _ => [], fun _ _ => [], fun _ _ => [], fun _ _ => [],
       fun _ => [], fun _ => [], ["extra"], [], fun _ => [], []⟩
      ⟨[], [], [], [], [], [], []⟩ = (0, []) := by decide

/-- C6 (amended): the have-minus-want (Unexpected) side is reported by the
categories that compare in both directions — role memberships, and the
columns of an existing table — while roles and sequences report only missing
entries, and an extra live table is never detected (the live side is queried
per expected table only). -/
theorem unexpected_side_reported :
    (∀ (db : DBY) (snap : SnapY) (m : String × String),
      m ∈ db.role_members → m ∉ snap.role_memberships →
      ∃ L, YFind.unexpectedRoleMemberships L ∈ (checkRoles db snap).2 ∧ m ∈ L) ∧
    (∀ (db : DBY) (s n : String) (t : Table) (r : ColRow) (c : String),
      r ∈ db.cols s n → r.column_name = c → (∀ wc ∈ t.columns, wc.name ≠ c) →
      ∃ L, YFind.unexpectedColumns s n L ∈ (checkOneTableY db s n t).2 ∧ c ∈ L) := by
  constructor
  · intro db snap m hmem hnot
    have hset : eqSetB snap.role_memberships db.role_members = false := by
      cases hh : eqSetB snap.role_memberships db.role_members
      · rfl
      · exfalso
        rw [eqSetB, Bool.and_eq_true, List.all_eq_true, List.all_eq_true] at hh
        exact hnot (by simpa using hh.2 m hmem)
    have hm_extra : m ∈ setDiffSorted ltPairS db.role_members snap.role_memberships :=
      mem_setDiffSorted.mpr ⟨hmem, hnot⟩
    refine ⟨setDiffSorted ltPairS db.role_members snap.role_memberships, ?_, hm_extra⟩
    rw [checkRoles]
    dsimp only
    rw [if_neg (by simp [hset])]
    apply mem_fComb_right
    apply mem_fComb_right
    exact mem_fSite (decide_eq_true (List.ne_nil_of_mem hm_extra))
  · intro db s n t r c hr hrc hwc
    have hrows : ¬db.cols s n = [] := by
      intro hnil
      rw [hnil] at hr
      simp at hr
    have hc_actual : c ∈ (actualCols (db.cols s n)).map Prod.fst := by
      rw [actualCols, dictUp_keys, mem_dedupFirst, List.map_map]
      exact List.mem_map.mpr ⟨r, hr, hrc⟩
    have hc_not : c ∉ (dictUp (t.columns.map (fun c1 => (c1.name, c1)))).map Prod.fst := by
      rw [dictUp_keys, mem_dedupFirst, List.map_map]
      intro hcon
      rcases List.mem_map.mp hcon with ⟨wc, hwcm, hwceq⟩
      exact hwc wc hwcm hwceq
    have hc_extra : c ∈ ((actualCols (db.cols s n)).map Prod.fst).filter
        (fun c0 => decide (c0 ∉ (dictUp (t.columns.map (fun c1 => (c1.name, c1)))).map Prod.fst)) :=
      List.mem_filter.mpr ⟨hc_actual, decide_eq_true hc_not⟩
    refine ⟨sortByKey id (((actualCols (db.cols s n)).map Prod.fst).filter
      (fun c0 => decide (c0 ∉ (dictUp (t.columns.map
        (fun c1 => (c1.name, c1)))).map Prod.fst))), ?_, ?_⟩
    · rw [checkOneTableY, if_neg hrows]
      dsimp only
      apply mem_fComb_right
      apply mem_fComb_left
      exact mem_fSite (decide_eq_true (List.ne_nil_of_mem hc_extra))
    · rw [sortByKey, List.mem_insertionSort]
      exact hc_extra

theorem unexpected_side_reported_witness :
    (∃ L, YFind.unexpectedRoleMemberships L ∈
      (checkRoles
        ⟨fun _ _ => [], fun _ _ => [], fun _ _ => [], fun _ _ => [],
         fun _ => [], fun _ => [], [], [("r1", "m1")], fun _ => [], []⟩
        ⟨[], [], [], [], [], [], []⟩).2 ∧ ("r1", "m1") ∈ L) ∧
    (∃ L, YFind.unexpectedColumns "public" "users" L ∈
      (checkOneTableY
        ⟨fun _ _ => [⟨"surprise", none, some "text", some "YES", none, none, none, none,
          none, some "NO"⟩],
         fun _ _ => [], fun _ _ => [], fun _ _ => [],
         fun _ => [], fun _ => [], [], [], fun _ => [], []⟩
        "public" "users" ⟨"public", "users", [], none, [], []⟩).2 ∧ "surprise" ∈ L) :=
  ⟨unexpected_side_reported.1 _ _ ("r1", "m1") (List.mem_cons_self _ _) (by decide),
   unexpected_side_reported.2 _ "public" "users" _ _ "surprise"
     (List.mem_cons_self _ _) rfl (by decide)⟩

/-! ### Ignored tables and the findings that reference them (C5) -/

theorem mem_fSite_elim {c : Bool} {f x : φ} (h : x ∈ (fSite c f).2) : x = f := by
  rw [fSite] at h
  cases c with
  | true => simpa using h
  | false => simp at h

theorem mem_fAll_elim {l : List (Nat × List φ)} {x : φ} :
    x ∈ (fAll l).2 → ∃ p ∈ l, x ∈ p.2 := by
  induction l with
  | nil => intro h; simp [fAll] at h
  | cons p t ih =>
    intro h
    rcases List.mem_append.mp h with h | h
    · exact ⟨p, List.mem_cons_self _ _, h⟩
    · rcases ih h with ⟨q, hq, hx⟩
      exact ⟨q, List.mem_cons_of_mem _ hq, hx⟩

theorem cmpOneTableJ_refs (cfg : IgnoreCfg) (db : DBJ) (tb : Table) (s t : String)
    (hig : shouldIgnoreTable cfg.tables s t = true) :
    ∀ f ∈ (cmpOneTableJ cfg db tb).2, referencesTable f s t = false := by
  intro f hf
  rw [cmpOneTableJ] at hf
  by_cases hskip : shouldIgnoreTable cfg.tables tb.schema tb.name = true
  · rw [if_pos hskip] at hf
    simp at hf
  · rw [if_neg hskip] at hf
    have hneq : (decide (tb.schema = s) && decide (tb.name = t)) = false := by
      by_cases h1 : tb.schema = s
      · by_cases h2 : tb.name = t
        · rw [← h1, ← h2] at hig
          exact absurd hig hskip
        · simp [h2]
      · simp [h1]
    dsimp only at hf
    by_cases hrows : db.cols tb.schema tb.name = []
    · rw [if_pos hrows] at hf
      rw [mem_fSite_elim hf]
      simpa [referencesTable] using hneq
    · rw [if_neg hrows] at hf
      rcases List.mem_append.mp hf with hf | hf
      · rcases mem_fAll_elim hf with ⟨p, hp, hfp⟩
        rcases List.mem_map.mp hp with ⟨cm, _, rfl⟩
        split at hfp
        · rw [mem_fSite_elim hfp]
          simpa [referencesTable] using hneq
        · rcases mem_fAll_elim hfp with ⟨q, hq, hfq⟩
          rcases List.mem_map.mp hq with ⟨kv, _, rfl⟩
          split at hfq
          · simp at hfq
          · split at hfq
            · simp at hfq
            · rw [mem_fSite_elim hfq]
              simpa [referencesTable] using hneq
      rcases List.mem_append.mp hf with hf | hf
      · rw [mem_fSite_elim hf]
        simpa [referencesTable] using hneq
      rcases List.mem_append.mp hf with hf | hf
      · split at hf
        · rw [mem_fSite_elim hf]
          simpa [referencesTable] using hneq
        · rw [mem_fSite_elim hf]
          simpa [referencesTable] using hneq
        · rw [mem_fSite_elim hf]
          simpa [referencesTable] using hneq
        · simp at hf
      rcases List.mem_append.mp hf with hf | hf
      · rw [mem_fSite_elim hf]
        simpa [referencesTable] using hneq
      · rw [mem_fSite_elim hf]
        simpa [referencesTable] using hneq

theorem trigTup_refs_false {cfg : IgnoreCfg} {s t : String} {x : TrigTup}
    (hig : shouldIgnoreTable cfg.tables s t = true)
    (hx : shouldIgnoreTable cfg.tables x.1 x.2.1 = false) :
    (decide (x.1 = s) && decide (x.2.1 = t)) = false := by
  by_cases h1 : x.1 = s
  · by_cases h2 : x.2.1 = t
    · rw [← h1, ← h2] at hig
      rw [hig] at hx
      exact absurd hx (by simp)
    · simp [h2]
  · simp [h1]

theorem anyFalse {p : α → Bool} : ∀ {l : List α}, (∀ x ∈ l, p x = false) → l.any p = false := by
  intro l
  induction l with
  | nil => intro _; rfl
  | cons a tl ih =>
    intro h
    rw [List.any_cons, h a (List.mem_cons_self _ _), ih (fun x hx => h x (List.mem_cons_of_mem _ hx))]
    rfl

theorem cmpTriggers_refs (cfg : IgnoreCfg) (snapTrigs : Option (List TrigSnap))
    (db : DBJ) (inc exc : List String) (s t : String)
    (hig : shouldIgnoreTable cfg.tables s t = true) :
    ∀ f ∈ (cmpTriggers cfg snapTrigs db inc exc).2, referencesTable f s t = false := by
  intro f hf
  cases snapTrigs with
  | none => rw [cmpTriggers] at hf; simp at hf
  | some ts =>
    rw [cmpTriggers] at hf
    dsimp only at hf
    split at hf
    · simp at hf
    · rcases List.mem_append.mp hf with hf | hf
      · rw [mem_fSite_elim hf]
        simp only [referencesTable]
        apply anyFalse
        intro x hx
        rcases mem_setDiffSorted.mp hx with ⟨hxw, _⟩
        have hx' := List.of_mem_filter hxw
        exact trigTup_refs_false hig (by simpa using hx')
      · rw [mem_fSite_elim hf]
        simp only [referencesTable]
        apply anyFalse
        intro x hx
        rcases mem_setDiffSorted.mp hx with ⟨hxh, _⟩
        rcases List.mem_map.mp hxh with ⟨k, hk, rfl⟩
        have hk' := mem_dedupFirst.mp hk
        rcases List.mem_map.mp hk' with ⟨r, hr, rfl⟩
        have hr' := List.of_mem_filter hr
        exact trigTup_refs_false hig (by simpa using hr')

theorem cmpTables_refs (cfg : IgnoreCfg) (tablesJ : List Table) (db : DBJ) (s t : String)
    (hig : shouldIgnoreTable cfg.tables s t = true) :
    ∀ f ∈ (cmpTables cfg tablesJ db).2, referencesTable f s t = false := by
  intro f hf
  rw [cmpTables] at hf
  rcases mem_fAll_elim hf with ⟨p, hp, hfp⟩
  rcases List.mem_map.mp hp with ⟨tb, _, rfl⟩
  exact cmpOneTableJ_refs cfg db tb s t hig f hfp

/-- C5 counterexample: the sequence category of the JSON checker applies no
ignore filtering, so a finding can reference a table that matches an ignore
glob.  With ignore pattern `audit.*`, a snapshot sequence ownership pointing
at table `audit.log`, and a live database with no owned sequences, the run
reports a missing-sequence-ownership finding that references `audit.log`. -/
theorem ignored_table_referenced_counterexample :
    shouldIgnoreTable ["audit.*"] "audit" "log" = true ∧
    ∃ f, f ∈ (cmpSequencesJ none (some [⟨"public", "s1", "audit", "log", "id"⟩])
        ⟨fun _ _ => [], fun _ _ => [], fun _ _ => [], fun _ _ => [],
         fun _ _ => [], fun _ => [], []⟩).2 ∧
      referencesTable f "audit" "log" = true :=
  ⟨by decide,
   JFind.missingSeqOwnerships [("public", "s1", "audit", "log", "id")],
   by decide, by decide⟩

/-- C5 (corrected): in the table category and the trigger category of the
JSON checker, no finding ever references a table whose dotted name matches a
configured ignore glob — `cmp_tables` skips matching tables before any query
and `cmp_triggers` filters both the expected and the live side.  The original
claim over every category is false: `cmp_sequences` applies no ignore
filtering, so its ownership findings can reference an ignored table (see the
counterexample). -/
theorem ignored_table_never_referenced (cfg : IgnoreCfg) (tablesJ : List Table)
    (db : DBJ) (snapTrigs : Option (List TrigSnap)) (inc exc : List String)
    (s t : String) (hig : shouldIgnoreTable cfg.tables s t = true) :
    ∀ f, f ∈ (cmpTables cfg tablesJ db).2 ∨ f ∈ (cmpTriggers cfg snapTrigs db inc exc).2 →
      referencesTable f s t = false := by
  intro f hf
  rcases hf with hf | hf
  · exact cmpTables_refs cfg tablesJ db s t hig f hf
  · exact cmpTriggers_refs cfg snapTrigs db inc exc s t hig f hf

/-- C5 witness: at a concrete configuration ignoring `audit.*` and a live
database where table `public.users` is entirely absent, the missing-table
finding produced by the table category does not reference `audit.log`. -/
theorem ignored_table_never_referenced_witness :
    referencesTable (JFind.missingTable "public" "users") "audit" "log" = false :=
  ignored_table_never_referenced ⟨["audit.*"], [], []⟩
    [⟨"public", "users", [], none, [], []⟩]
    ⟨fun _ _ => [], fun _ _ => [], fun _ _ => [], fun _ _ => [],
     fun _ _ => [], fun _ => [], []⟩ none [] [] "audit" "log" (by decide)
    (JFind.missingTable "public" "users") (Or.inl (by decide))

end SchemaDrift
